import Mathlib

/-!
Verification of the LocL translation engine (`src/LocL.ts`).

The runtime is shallowly embedded: JavaScript values appearing in the
translation resources and interpolation value bags are modelled by `JV`;
the `LocL` instance state (configuration plus the scoped-subtree cache) is
modelled by `Tr` and `Cache`.  Locale-dependent externals
(`Intl.PluralRules.select`, `Intl.NumberFormat`, `Intl.DateTimeFormat`)
are fields of `Tr` holding abstract functions, exactly as the source
treats them as external collaborators.  Strings manipulated by the
interpolation engine are modelled as `List Char` (the `data` of a Lean
`String`), with JavaScript's string primitives (`split`, `trim`,
first-occurrence `replace`, the case-extraction regex) translated to
executable list functions.

The only statement in the engine that can throw after construction is the
strict-mode `TypeError` raised when the array-scope merge assigns through
a read-only proxy; stateful operations therefore return
`Except Unit (result × Cache × warnings)`, where the warning list records
the `console.warn` calls (each of which is guarded by `devMode` in the
source).
-/

namespace LocL

/-- JavaScript values reachable by the engine: strings, numbers, `Date`
instances (identified by their epoch milliseconds) and plain objects with
ordered fields. -/
inductive JV where
  | str (s : String)
  | num (n : Int)
  | date (ms : Int)
  | obj (fields : List (String × JV))

/-- Association-list lookup, the model of JavaScript property access on a
plain object (first binding wins, as `assocSet` below keeps keys unique in
insertion order). -/
def alist {κ α : Type} [DecidableEq κ] (k : κ) : List (κ × α) → Option α
  | [] => none
  | (k', v) :: rest => if k' = k then some v else alist k rest

/-- Property assignment on a plain object: an existing key keeps its
position and is overwritten, a new key is appended — JavaScript property
insertion order. -/
def assocSet {κ α : Type} [DecidableEq κ] (fs : List (κ × α)) (k : κ) (v : α) :
    List (κ × α) :=
  match fs with
  | [] => [(k, v)]
  | (k', v') :: rest => if k' = k then (k', v) :: rest else (k', v') :: assocSet rest k v

/-- JavaScript truthiness for the modelled values. -/
def truthy : JV → Bool
  | .str s => s ≠ ""
  | .num n => n ≠ 0
  | .date _ => true
  | .obj _ => true

/-- Model of `String(val)` for the modelled values.  `Date` never occurs
inside a translation tree, and its (locale and timezone dependent)
stringification is not exercised by any claim, so a placeholder is used. -/
def toStringJS : JV → String
  | .str s => s
  | .num n => toString n
  | .date _ => "[object Date]"
  | .obj _ => "[object Object]"

/-! ### JavaScript string primitives over `List Char` -/

/-- The whitespace characters recognised by `String.prototype.trim` that
can occur in the inputs under study (ASCII whitespace). -/
def isSpaceJS (c : Char) : Bool :=
  c = ' ' || c = '\t' || c = '\n' || c = '\r'

/-- `s.trim()`. -/
def trimL (s : List Char) : List Char :=
  ((s.dropWhile isSpaceJS).reverse.dropWhile isSpaceJS).reverse

/-- `s.split(sep)` for a single-character separator; always returns at
least one (possibly empty) piece, like the JavaScript method. -/
def splitChar (s : List Char) (sep : Char) : List (List Char) :=
  match s with
  | [] => [[]]
  | c :: cs =>
    match splitChar cs sep with
    | [] => [[]]
    | h :: t => if c = sep then [] :: h :: t else (c :: h) :: t

/-- `pieces.join(sep)`. -/
def joinSepL (sep : List Char) : List (List Char) → List Char
  | [] => []
  | [x] => x
  | x :: xs => x ++ sep ++ joinSepL sep xs

/-- Whether `p` is a prefix of `s` (Boolean, for executable scanning). -/
def isPre : List Char → List Char → Bool
  | [], _ => true
  | _ :: _, [] => false
  | p :: ps, c :: cs => p = c && isPre ps cs

/-- `s.includes(pat)`. -/
def containsSub (pat : List Char) : List Char → Bool
  | [] => isPre pat []
  | c :: cs => isPre pat (c :: cs) || containsSub pat cs

/-- `s.endsWith(pat)`. -/
def endsWithL (s pat : List Char) : Bool :=
  isPre pat.reverse s.reverse

/-- `s.replace(pat, repl)` with a string pattern: JavaScript replaces only
the FIRST occurrence of `pat` (and with an empty pattern inserts `repl`
at the front). -/
def jsReplaceFirst (s pat repl : List Char) : List Char :=
  match s with
  | [] => if isPre pat [] then repl else []
  | c :: cs =>
    if isPre pat (c :: cs) then repl ++ (c :: cs).drop pat.length
    else c :: jsReplaceFirst cs pat repl

/-! ### The interpolation engine (`LocL.interpolate`) -/

/-- The balanced-brace token scan of `interpolate`: a single left-to-right
pass over the template keeping a nesting `depth : Int` (which may go
negative on stray closing braces) and the `start` index of the current
candidate token (`-1` in the source, here `Option Nat`).  On `{` at depth
0 the start is recorded; on `}` the depth is decremented and, when it
returns to 0 with a start recorded, the raw span `slice(start, i+1)` is
emitted. -/
def scanAux (orig : List Char) : List Char → Nat → Int → Option Nat → List (List Char)
  | [], _, _, _ => []
  | c :: rest, i, depth, start =>
    if c = '{' then
      scanAux orig rest (i + 1) (depth + 1) (if depth = 0 then some i else start)
    else if c = '}' then
      match start with
      | some st =>
        if depth - 1 = 0 then
          ((orig.drop st).take (i + 1 - st)) :: scanAux orig rest (i + 1) (depth - 1) none
        else scanAux orig rest (i + 1) (depth - 1) (some st)
      | none => scanAux orig rest (i + 1) (depth - 1) none
    else scanAux orig rest (i + 1) depth start

/-- The token list of a template: each raw balanced span paired with its
inner text (`raw.slice(1, -1).trim()`). -/
def scanTokens (s : List Char) : List (List Char × List Char) :=
  (scanAux s s 0 0 none).map (fun raw => (raw, trimL (raw.drop 1).dropLast))

/-- A `\w` character: ASCII letter, digit or underscore. -/
def isWordChar (c : Char) : Bool :=
  c.isAlpha || c.isDigit || c = '_'

/-- Capture `[^}]*` up to the mandatory closing `}`; returns the captured
body and the remainder after the `}`, or `none` when no `}` follows. -/
def takeCaseBody : List Char → Option (List Char × List Char)
  | [] => none
  | c :: cs =>
    if c = '}' then some ([], cs)
    else (takeCaseBody cs).map (fun p => (c :: p.1, p.2))

/-- Repeated `exec` of the case-extraction regex over the rejoined
remainder of a `select` token.  Successive matches of
`word \s* \x7b [^}]* \x7d` are collected; the fuel argument (always at
least the length of the scanned text) models the regex engine's bounded
left-to-right scan. -/
def findCasesAux : Nat → List Char → List (String × String)
  | 0, _ => []
  | _, [] => []
  | fuel + 1, c :: cs =>
    if isWordChar c then
      let w := (c :: cs).takeWhile isWordChar
      let afterSp := ((c :: cs).dropWhile isWordChar).dropWhile isSpaceJS
      match afterSp with
      | '{' :: body =>
        match takeCaseBody body with
        | some (b, rest) => (String.mk w, String.mk (trimL b)) :: findCasesAux fuel rest
        | none => findCasesAux fuel cs
      | _ => findCasesAux fuel cs
    else findCasesAux fuel cs

/-- All case→text pairs extracted by the regex
`(\w+)\s*\x7b([^}]*)\x7d` applied globally. -/
def findCases (s : List Char) : List (String × String) :=
  findCasesAux (s.length + 1) s

/-- An interpolation value bag (`InterpolationOptions`): the own
properties of the supplied plain object. -/
abbrev Values := List (String × JV)

/-- A named formatter: receives the (possibly undefined) value and the
(possibly undefined) argument array and returns a string. -/
def Fmt : Type := Option JV → Option (List String) → String

/-- A configured scope: absent, a single dotted path, or a sequence of
dotted paths. -/
inductive ScopeV where
  | undef
  | single (s : String)
  | multi (paths : List String)

/-- The translator state: the configuration fields of the `LocL` instance
that the runtime reads, with the `Intl` collaborators abstracted as
locale-indexed functions. -/
structure Tr where
  resources : List (String × JV)
  language : String
  fallbackLanguage : String
  scope : ScopeV
  devMode : Bool
  useCache : Bool
  selFor : String → Option JV → String
  numFor : String → Int → String
  dateFor : String → Int → String
  formatters : List (String × Fmt)

/-- Resolution of one token against the value bag (the body of the token
loop in `interpolate`): a `select` expression when the inner text contains
the substring `select`, otherwise plain/formatted interpolation. -/
def resolveToken (tr : Tr) (values : Values) (raw inner : List Char) : List Char :=
  if containsSub "select".data inner then
    -- select branch: inner.split(",").map(trim) destructured as
    -- [field, type, ...rest]
    let parts := (splitChar inner ',').map trimL
    let field := String.mk (parts.headD [])
    let type? := parts.get? 1
    if type? = some "select".data then
      let value := toStringJS ((alist field values).getD (.str "other"))
      let caseMap := findCases (joinSepL [' '] (parts.drop 2))
      (((alist value caseMap).or (alist "other" caseMap)).getD "").data
    else
      -- the replacement variable keeps its initial value, the empty string
      []
  else
    -- plain interpolation / formatter pipe:
    -- [fieldName, formatterAndArgs] = inner.split("|").map(trim)
    let parts := (splitChar inner '|').map trimL
    let fieldName := String.mk (parts.headD [])
    let fa? := parts.get? 1
    let fmtName? : Option String := fa?.map (fun fa => String.mk ((splitChar fa ':').headD []))
    let argsStr? : Option String := fa?.bind (fun fa => ((splitChar fa ':').get? 1).map String.mk)
    let args : List String :=
      match argsStr? with
      | some a => if a = "" then [] else ((splitChar a.data ',').map String.mk)
      | none => []
    let val := alist fieldName values
    match fmtName? with
    | some fn =>
      if fn ≠ "" then
        match alist fn tr.formatters with
        | some f => (f val (some args)).data
        | none => fallbackRender tr raw val
      else fallbackRender tr raw val
    | none => fallbackRender tr raw val
where
  /-- The non-formatter branches: locale date formatting for `Date`
  values, locale number formatting for numbers, `String(val)` for other
  defined values, and the raw token text when the value is undefined. -/
  fallbackRender (tr : Tr) (raw : List Char) : Option JV → List Char
    | some (.date d) => (tr.dateFor tr.language d).data
    | some (.num n) => (tr.numFor tr.language n).data
    | some v => (toStringJS v).data
    | none => raw

/-- The interpolation loop: each discovered token is resolved and then
substituted via `output.replace(raw, replacement)` — JavaScript
first-occurrence replacement. -/
def interpCore (tr : Tr) (s : List Char) (values : Values) : List Char :=
  (scanTokens s).foldl
    (fun out tok => jsReplaceFirst out tok.1 (resolveToken tr values tok.1 tok.2)) s

/-- `LocL.interpolate`: the identity when no value bag is supplied or the
resolved value is not a string. -/
def interpolate (tr : Tr) (result : Option JV) (values : Option Values) : Option JV :=
  match values, result with
  | some vs, some (.str s) => some (.str (String.mk (interpCore tr s.data vs)))
  | _, _ => result

/-! ### Scoped-tree construction and key lookup -/

/-- `path.split(".")` producing `String` segments. -/
def splitOnDot (s : String) : List String :=
  (splitChar s.data '.').map String.mk

/-- `segs.reduce((acc, k) => acc?.[k], start)`: optional-chained property
walk along a dotted path. -/
def walkPath (start : Option JV) (segs : List String) : Option JV :=
  segs.foldl
    (fun acc k =>
      match acc with
      | some (.obj fs) => alist k fs
      | _ => none)
    start

/-- The loop of `findTranslation`: at each step the remaining joined path
is first tried as a literal key of the current node, then the next single
segment is descended into. -/
def findLoop : JV → List String → Option JV
  | cur, [] => some cur
  | .obj fs, k :: rest =>
    match alist (joinSep "." (k :: rest)) fs with
    | some v => some v
    | none =>
      match alist k fs with
      | some nxt => findLoop nxt rest
      | none => none
  | _, _ :: _ => none
where
  /-- `pieces.join(sep)` for `String` pieces. -/
  joinSep (sep : String) : List String → String
    | [] => ""
    | [x] => x
    | x :: xs => x ++ sep ++ joinSep sep xs

/-- `LocL.findTranslation`: `undefined` unless the translation object is a
truthy object, then the dotted walk with literal-key support. -/
def findTranslation (keys : List String) : Option JV → Option JV
  | some (.obj fs) => findLoop (.obj fs) keys
  | _ => none

/-- A node of the synthetic tree built for an array scope: either a value
grafted from the (read-only, proxy-wrapped) resource tree, or a fresh
plain container created by the merge. -/
inductive CN where
  | graft (v : JV)
  | box (fields : List (String × CN))

/-- One graft of the array-scope merge
(`mod.split(".").reduce(..., combined)`): intermediate segments use
`acc[k] ??= \x7b\x7d`, the final segment uses the unconditional assignment
`acc[k] = val`.  Stepping into a grafted node means writing through the
read-only proxy (or onto a primitive), which under strict mode throws a
`TypeError` — modelled as `none`. -/
def graftPath : CN → List String → JV → Option CN
  | .graft _, _, _ => none
  | .box fs, [], _ => some (.box fs)
  | .box fs, [k], v => some (.box (assocSet fs k (.graft v)))
  | .box fs, k :: k' :: rest, v =>
    let child := (alist k fs).getD (.box [])
    (graftPath child (k' :: rest) v).map (fun c => .box (assocSet fs k c))

/-- The array-scope loop of `buildTranslationObject`: each path is walked;
truthy results are grafted at their dotted location, falsy/absent results
are skipped. -/
def buildCombined (langObject : Option JV) (mods : List String) : Option CN :=
  mods.foldl
    (fun acc mod =>
      match acc with
      | none => none
      | some cn =>
        match walkPath langObject (splitOnDot mod) with
        | some v => if truthy v then graftPath cn (splitOnDot mod) v else some cn
        | none => some cn)
    (some (.box []))

mutual
/-- The value content of a synthetic tree (the read-only wrapping applied
afterwards by `makeReadOnly` is value-transparent). -/
def cnToJV : CN → JV
  | .graft v => v
  | .box fs => .obj (cnFields fs)

/-- Value content of the fields of a synthetic container. -/
def cnFields : List (String × CN) → List (String × JV)
  | [] => []
  | (k, c) :: rest => (k, cnToJV c) :: cnFields rest
end

/-- `getCacheKey`'s scope component: the `|`-join for an array scope, the
path itself for a string scope, `*` otherwise. -/
def scopeKeyOf : ScopeV → String
  | .multi ps => joinSep "|" ps
  | .single s => s
  | .undef => "*"
where
  joinSep (sep : String) : List String → String
    | [] => ""
    | [x] => x
    | x :: xs => x ++ sep ++ joinSep sep xs

/-- The scoped-subtree cache (`Map<string, ...>`); newest entry first, so
`lookupC` finds the latest `set`. -/
abbrev Cache := List (String × Option JV)

/-- `cache.get` combined with `cache.has`: `some v` when the key is
present (`v` itself may be `none`, a cached `undefined`). -/
def lookupC (cache : Cache) (key : String) : Option (Option JV) :=
  match cache with
  | [] => none
  | (k, v) :: rest => if k = key then some v else lookupC rest key

/-- Stateful results: a thrown `TypeError` (array-scope merge only) or a
value together with the updated cache and emitted warnings. -/
abbrev Res (α : Type) := Except Unit (α × Cache × List String)

/-- The value component of a stateful result. -/
def resVal {α : Type} : Res α → Except Unit α
  | .error e => .error e
  | .ok (v, _, _) => .ok v

/-- Diagnostic text for a missing namespace. -/
def msgNamespace (scope lang : String) : String :=
  "[LocL] Missing namespace: " ++ scope ++ " in " ++ lang

/-- Diagnostic text for a missing key. -/
def msgKey (key lang : String) : String :=
  "[LocL] Missing key: " ++ key ++ " in " ++ lang

/-- Diagnostic text for a missing plural form. -/
def msgPlural (key lang : String) : String :=
  "[LocL] Missing plural: " ++ key ++ " in " ++ lang

/-- Diagnostic text for a missing formatter. -/
def msgFormatter (name : String) : String :=
  "[LocL] Formatter " ++ name ++ " not found."

/-- `LocL.buildTranslationObject`: the whole language tree when no scope
is configured (`!this.scope` also catches the falsy scope `""`), a cached
or freshly walked sub-tree for a string scope, and the synthetic merged
tree for an array scope.  Missing-namespace warnings quote
`this.language` regardless of the language being built, as in the
source. -/
def buildTranslationObject (tr : Tr) (cache : Cache) (lang : String) : Res (Option JV) :=
  let langObject := alist lang tr.resources
  match tr.scope with
  | .undef => .ok (langObject, cache, [])
  | .single s =>
    if s = "" then .ok (langObject, cache, [])
    else
      let key := lang ++ "::" ++ s
      match (if tr.useCache then lookupC cache key else none) with
      | some v => .ok (v, cache, [])
      | none =>
        let result := walkPath langObject (splitOnDot s)
        let cache' := if tr.useCache then (key, result) :: cache else cache
        let w := if result.isNone && tr.devMode then [msgNamespace s tr.language] else []
        .ok (result, cache', w)
  | .multi mods =>
    let key := lang ++ "::" ++ scopeKeyOf (.multi mods)
    match (if tr.useCache then lookupC cache key else none) with
    | some v => .ok (v, cache, [])
    | none =>
      match buildCombined langObject mods with
      | none => .error ()
      | some cn =>
        let v := some (cnToJV cn)
        let cache' := if tr.useCache then (key, v) :: cache else cache
        .ok (v, cache', [])

/-- `LocL.lookupWithFallback`: primary-language lookup, then the fallback
language on a miss, with dev-mode warnings at each miss.  A provided
`base` replaces the primary build (`base ?? this.buildTranslationObject`). -/
def lookupWithFallback (tr : Tr) (cache : Cache) (key : String) (base : Option JV) :
    Res (Option JV) :=
  let keys := splitOnDot key
  let step1 : Res (Option JV) :=
    match base with
    | some b => .ok (some b, cache, [])
    | none => buildTranslationObject tr cache tr.language
  match step1 with
  | .error e => .error e
  | .ok (b, c1, w1) =>
    let r1 := findTranslation keys b
    let w2 := if r1.isNone && tr.devMode then [msgKey key tr.language] else []
    match r1 with
    | some v => .ok (some v, c1, w1 ++ w2)
    | none =>
      match buildTranslationObject tr c1 tr.fallbackLanguage with
      | .error e => .error e
      | .ok (fb, c2, w3) =>
        let r2 := findTranslation keys fb
        let w4 := if r2.isNone && tr.devMode then [msgKey key tr.fallbackLanguage] else []
        .ok (r2, c2, w1 ++ w2 ++ w3 ++ w4)

/-- The suffix test of `checkPlural`: the regex
`/_(one|few|many|other)$/` — note `_zero` and `_two` are not matched. -/
def hasPluralSuffix (key : String) : Bool :=
  endsWithL key.data "_one".data || endsWithL key.data "_few".data ||
    endsWithL key.data "_many".data || endsWithL key.data "_other".data

/-- `LocL.checkPlural`: when the value bag defines `count` and the key
carries no recognised plural suffix, the category-suffixed key is looked
up and interpolated; in every other case the function returns
`undefined`. -/
def checkPlural (tr : Tr) (cache : Cache) (key : String) (values : Option Values) :
    Res (Option JV) :=
  match values with
  | none => .ok (none, cache, [])
  | some vs =>
    match alist "count" vs with
    | none => .ok (none, cache, [])
    | some cnt =>
      if hasPluralSuffix key then .ok (none, cache, [])
      else
        let category := tr.selFor tr.language (some cnt)
        match lookupWithFallback tr cache (key ++ "_" ++ category) none with
        | .error e => .error e
        | .ok (r, c1, w1) => .ok (interpolate tr r values, c1, w1)

/-- `LocL.applyFormat`: the unformatted value (plus a dev-mode warning)
when the named formatter does not exist, otherwise its application. -/
def applyFormat (tr : Tr) (value : JV) (formatter : String) (args : Option (List String)) :
    JV × List String :=
  match alist formatter tr.formatters with
  | none => (value, if tr.devMode then [msgFormatter formatter] else [])
  | some f => (.str (f (some value) args), [])

/-- `LocL.get`: the scoped tree for the current language when the key is
falsy, otherwise `lookupWithFallback` starting from that tree. -/
def getFn (tr : Tr) (cache : Cache) (key : Option String) : Res (Option JV) :=
  match buildTranslationObject tr cache tr.language with
  | .error e => .error e
  | .ok (base, c1, w1) =>
    match key with
    | none => .ok (base, c1, w1)
    | some k =>
      if k = "" then .ok (base, c1, w1)
      else
        match lookupWithFallback tr c1 k base with
        | .error e => .error e
        | .ok (r, c2, w2) => .ok (r, c2, w1 ++ w2)

/-- An explicit format request (`format && format.formatter`): the
formatter name and optional argument array. -/
abbrev FmtOpt := Option (String × Option (List String))

/-- `LocL.t`: `get()` on a falsy key; else the plural check short-circuits
when its result is defined (skipping the explicit formatter); else normal
lookup, interpolation with identity fallback to the key, and the optional
explicit formatter. -/
def tFn (tr : Tr) (cache : Cache) (key : String) (values : Option Values) (fmt : FmtOpt) :
    Res (Option JV) :=
  if key = "" then getFn tr cache none
  else
    match checkPlural tr cache key values with
    | .error e => .error e
    | .ok (p, c1, w1) =>
      match p with
      | some pv => .ok (some pv, c1, w1)
      | none =>
        match lookupWithFallback tr c1 key none with
        | .error e => .error e
        | .ok (r, c2, w2) =>
          let interpolated := (interpolate tr r values).getD (.str key)
          match fmt with
          | some (fn, args) =>
            if fn ≠ "" then
              let fr := applyFormat tr interpolated fn args
              .ok (some fr.1, c2, w1 ++ w2 ++ fr.2)
            else .ok (some interpolated, c2, w1 ++ w2)
          | none => .ok (some interpolated, c2, w1 ++ w2)

/-- `LocL.tt` delegates to `t` unchanged. -/
def ttFn (tr : Tr) (cache : Cache) (key : String) (values : Option Values) (fmt : FmtOpt) :
    Res (Option JV) :=
  tFn tr cache key values fmt

/-- `LocL.getObj` delegates to `get`. -/
def getObjFn (tr : Tr) (cache : Cache) (key : String) : Res (Option JV) :=
  getFn tr cache (some key)

/-- `LocL.plural`: the object-form branch when the base lookup yields a
truthy object (selected category, else `other` with a warning, else the
bare key), otherwise the suffix chain
`key_category ?? key_other ?? key`, each attempt through the full
fallback chain, with `interpolate(result) ?? key` at the end; finally the
optional explicit formatter. -/
def pluralFn (tr : Tr) (cache : Cache) (key : String) (values : Values) (fmt : FmtOpt) :
    Res JV :=
  let category := tr.selFor tr.language (alist "count" values)
  match lookupWithFallback tr cache key none with
  | .error e => .error e
  | .ok (baseValue, c1, w1) =>
    let core : Res JV :=
      match baseValue with
      | some (.obj fs) =>
        match alist category fs with
        | some cv =>
          .ok ((interpolate tr (some cv) (some values)).getD (.str key), c1, w1)
        | none =>
          let w := if tr.devMode then [msgPlural key tr.language] else []
          match alist "other" fs with
          | some ov =>
            .ok ((interpolate tr (some ov) (some values)).getD (.str key), c1, w1 ++ w)
          | none => .ok (.str key, c1, w1 ++ w)
      | _ =>
        match lookupWithFallback tr c1 (key ++ "_" ++ category) none with
        | .error e => .error e
        | .ok (r1, c2, w2) =>
          match r1 with
          | some v =>
            .ok ((interpolate tr (some v) (some values)).getD (.str key), c2, w1 ++ w2)
          | none =>
            match lookupWithFallback tr c2 (key ++ "_other") none with
            | .error e => .error e
            | .ok (r2, c3, w3) =>
              match r2 with
              | some v =>
                .ok ((interpolate tr (some v) (some values)).getD (.str key), c3,
                  w1 ++ w2 ++ w3)
              | none =>
                match lookupWithFallback tr c3 key none with
                | .error e => .error e
                | .ok (r3, c4, w4) =>
                  .ok ((interpolate tr r3 (some values)).getD (.str key), c4,
                    w1 ++ w2 ++ w3 ++ w4)
    match core with
    | .error e => .error e
    | .ok (v, c, w) =>
      match fmt with
      | some (fn, args) =>
        if fn ≠ "" then
          let fr := applyFormat tr v fn args
          .ok (fr.1, c, w ++ fr.2)
        else .ok (v, c, w)
      | none => .ok (v, c, w)

/-- `LocL.format` delegates to `applyFormat` (no cache interaction). -/
def formatFn (tr : Tr) (value : JV) (formatter : String) (args : Option (List String)) :
    JV × List String :=
  applyFormat tr value formatter args

/-- `LocL.changeLanguage`: switches only when the language is a key of the
resources (plural rules are recomputed, modelled by `selFor` being
indexed by the current language). -/
def changeLanguageFn (tr : Tr) (lang : String) : Tr :=
  if (tr.resources.map Prod.fst).contains lang then { tr with language := lang } else tr

/-! ### Cache-free reference semantics and the cache-coherence invariant

Caching in `buildTranslationObject` is intended as a pure optimisation.
The reference semantics below recompute every scoped sub-tree; the
bridge lemmas show that a translator whose cache is *coherent* (every
entry stores exactly what recomputation would produce) returns the same
values, and keeps its cache coherent. -/

/-- Cache-free scoped-tree construction: what `buildTranslationObject`
computes when every cache consultation misses. -/
def pureScoped (tr : Tr) (lang : String) : Except Unit (Option JV) :=
  let langObject := alist lang tr.resources
  match tr.scope with
  | .undef => .ok langObject
  | .single s =>
    if s = "" then .ok langObject else .ok (walkPath langObject (splitOnDot s))
  | .multi mods =>
    match buildCombined langObject mods with
    | none => .error ()
    | some cn => .ok (some (cnToJV cn))

/-- The cache key written and read for a given language. -/
def keyOf (tr : Tr) (lang : String) : String :=
  lang ++ "::" ++ scopeKeyOf tr.scope

/-- A cache is coherent when every entry stored under some language's key
is exactly the recomputed scoped tree for that language. -/
def Coherent (tr : Tr) (cache : Cache) : Prop :=
  ∀ lang v, lookupC cache (keyOf tr lang) = some v → pureScoped tr lang = .ok v

/-- Coherence demanded only when the cache is actually consulted. -/
def CohIf (tr : Tr) (cache : Cache) : Prop :=
  tr.useCache = true → Coherent tr cache

/-- Cache-free `lookupWithFallback`. -/
def pureLookup (tr : Tr) (key : String) (base : Option JV) : Except Unit (Option JV) :=
  let keys := splitOnDot key
  let step1 : Except Unit (Option JV) :=
    match base with
    | some b => .ok (some b)
    | none => pureScoped tr tr.language
  match step1 with
  | .error e => .error e
  | .ok b =>
    match findTranslation keys b with
    | some v => .ok (some v)
    | none =>
      match pureScoped tr tr.fallbackLanguage with
      | .error e => .error e
      | .ok fb => .ok (findTranslation keys fb)

/-- Cache-free `checkPlural`. -/
def pureCheckPlural (tr : Tr) (key : String) (values : Option Values) :
    Except Unit (Option JV) :=
  match values with
  | none => .ok none
  | some vs =>
    match alist "count" vs with
    | none => .ok none
    | some cnt =>
      if hasPluralSuffix key then .ok none
      else
        let category := tr.selFor tr.language (some cnt)
        match pureLookup tr (key ++ "_" ++ category) none with
        | .error e => .error e
        | .ok r => .ok (interpolate tr r values)

/-- Cache-free `get`. -/
def pureGet (tr : Tr) (key : Option String) : Except Unit (Option JV) :=
  match pureScoped tr tr.language with
  | .error e => .error e
  | .ok base =>
    match key with
    | none => .ok base
    | some k => if k = "" then .ok base else pureLookup tr k base

/-- Cache-free `t`. -/
def pureT (tr : Tr) (key : String) (values : Option Values) (fmt : FmtOpt) :
    Except Unit (Option JV) :=
  if key = "" then pureGet tr none
  else
    match pureCheckPlural tr key values with
    | .error e => .error e
    | .ok (some pv) => .ok (some pv)
    | .ok none =>
      match pureLookup tr key none with
      | .error e => .error e
      | .ok r =>
        let interpolated := (interpolate tr r values).getD (.str key)
        match fmt with
        | some (fn, args) =>
          if fn ≠ "" then .ok (some (applyFormat tr interpolated fn args).1)
          else .ok (some interpolated)
        | none => .ok (some interpolated)

/-- Cache-free `plural`. -/
def purePlural (tr : Tr) (key : String) (values : Values) (fmt : FmtOpt) :
    Except Unit JV :=
  let category := tr.selFor tr.language (alist "count" values)
  match pureLookup tr key none with
  | .error e => .error e
  | .ok baseValue =>
    let core : Except Unit JV :=
      match baseValue with
      | some (.obj fs) =>
        match alist category fs with
        | some cv => .ok ((interpolate tr (some cv) (some values)).getD (.str key))
        | none =>
          match alist "other" fs with
          | some ov => .ok ((interpolate tr (some ov) (some values)).getD (.str key))
          | none => .ok (.str key)
      | _ =>
        match pureLookup tr (key ++ "_" ++ category) none with
        | .error e => .error e
        | .ok (some v) => .ok ((interpolate tr (some v) (some values)).getD (.str key))
        | .ok none =>
          match pureLookup tr (key ++ "_other") none with
          | .error e => .error e
          | .ok (some v) => .ok ((interpolate tr (some v) (some values)).getD (.str key))
          | .ok none =>
            match pureLookup tr key none with
            | .error e => .error e
            | .ok r3 => .ok ((interpolate tr r3 (some values)).getD (.str key))
    match core with
    | .error e => .error e
    | .ok v =>
      match fmt with
      | some (fn, args) =>
        if fn ≠ "" then .ok (applyFormat tr v fn args).1 else .ok v
      | none => .ok v

/-- One public operation of the translator facade (the operations whose
return values the caching claim compares, plus the mutating
`changeLanguage`). -/
inductive Op where
  | opT (key : String) (values : Option Values) (fmt : FmtOpt)
  | opTT (key : String) (values : Option Values) (fmt : FmtOpt)
  | opGet (key : Option String)
  | opGetObj (key : String)
  | opPlural (key : String) (values : Values) (fmt : FmtOpt)
  | opFormat (value : JV) (name : String) (args : Option (List String))
  | opChangeLanguage (lang : String)

/-- One step of the facade: the updated translator and cache plus the
operation's returned value (`none` for `changeLanguage`). -/
def stepOp (tr : Tr) (cache : Cache) : Op → Except Unit (Tr × Cache × Option JV)
  | .opT k v f =>
    match tFn tr cache k v f with
    | .error e => .error e
    | .ok (r, c, _) => .ok (tr, c, r)
  | .opTT k v f =>
    match ttFn tr cache k v f with
    | .error e => .error e
    | .ok (r, c, _) => .ok (tr, c, r)
  | .opGet k =>
    match getFn tr cache k with
    | .error e => .error e
    | .ok (r, c, _) => .ok (tr, c, r)
  | .opGetObj k =>
    match getObjFn tr cache k with
    | .error e => .error e
    | .ok (r, c, _) => .ok (tr, c, r)
  | .opPlural k v f =>
    match pluralFn tr cache k v f with
    | .error e => .error e
    | .ok (r, c, _) => .ok (tr, c, some r)
  | .opFormat v n a => .ok (tr, cache, some (formatFn tr v n a).1)
  | .opChangeLanguage l => .ok (changeLanguageFn tr l, cache, none)

/-- The returned values of a whole operation sequence (a thrown error
aborts the run). -/
def runOutputs (tr : Tr) (cache : Cache) : List Op → Except Unit (List (Option JV))
  | [] => .ok []
  | op :: ops =>
    match stepOp tr cache op with
    | .error e => .error e
    | .ok (tr', c', out) =>
      match runOutputs tr' c' ops with
      | .error e => .error e
      | .ok outs => .ok (out :: outs)

/-- Cache-free step of the facade. -/
def pureStep (tr : Tr) : Op → Except Unit (Tr × Option JV)
  | .opT k v f =>
    match pureT tr k v f with
    | .error e => .error e
    | .ok r => .ok (tr, r)
  | .opTT k v f =>
    match pureT tr k v f with
    | .error e => .error e
    | .ok r => .ok (tr, r)
  | .opGet k =>
    match pureGet tr k with
    | .error e => .error e
    | .ok r => .ok (tr, r)
  | .opGetObj k =>
    match pureGet tr (some k) with
    | .error e => .error e
    | .ok r => .ok (tr, r)
  | .opPlural k v f =>
    match purePlural tr k v f with
    | .error e => .error e
    | .ok r => .ok (tr, some r)
  | .opFormat v n a => .ok (tr, some (formatFn tr v n a).1)
  | .opChangeLanguage l => .ok (changeLanguageFn tr l, none)

/-- Cache-free run. -/
def pureRun (tr : Tr) : List Op → Except Unit (List (Option JV))
  | [] => .ok []
  | op :: ops =>
    match pureStep tr op with
    | .error e => .error e
    | .ok (tr', out) =>
      match pureRun tr' ops with
      | .error e => .error e
      | .ok outs => .ok (out :: outs)

/-! ### The read-only proxy wrapper (`LocL.makeReadOnly`)

Object identity matters here, so this part of the runtime is modelled
with an explicit heap: addresses are naturals, objects are either plain
data objects or proxies created by `makeReadOnly`, and the per-instance
`proxyCache` (`WeakMap<object, proxy>`) maps target addresses to their
wrapper's address. -/

/-- A heap value: a string leaf or a reference to another heap object. -/
inductive HVal where
  | str (s : String)
  | ref (a : Nat)
deriving DecidableEq

/-- A heap object: a plain data object with ordered fields, or a
read-only proxy around a target address. -/
inductive HObj where
  | data (fields : List (String × HVal))
  | proxy (target : Nat)
deriving DecidableEq

/-- The heap together with the translator's `proxyCache`, the prototype
side-table (for `setPrototypeOf` on plain objects) and the next fresh
address. -/
structure Heap where
  objs : List (Nat × HObj)
  proxyCache : List (Nat × Nat)
  protos : List (Nat × Nat)
  next : Nat
deriving DecidableEq

/-- `LocL.makeReadOnly`: return the memoised wrapper when the target was
wrapped before, otherwise allocate a fresh proxy and record it in
`proxyCache`. -/
def makeReadOnly (h : Heap) (a : Nat) : Heap × Nat :=
  match alist a h.proxyCache with
  | some p => (h, p)
  | none =>
    ({ objs := (h.next, .proxy a) :: h.objs,
       proxyCache := (a, h.next) :: h.proxyCache,
       protos := h.protos,
       next := h.next + 1 }, h.next)

/-- The proxy `get` trap: read the property from the target and wrap
object-valued results through `makeReadOnly`. -/
def proxyGet (h : Heap) (p : Nat) (prop : String) : Heap × Option HVal :=
  match alist p h.objs with
  | some (.proxy t) =>
    match alist t h.objs with
    | some (.data fs) =>
      match alist prop fs with
      | some (.ref b) =>
        let r := makeReadOnly h b
        (r.1, some (.ref r.2))
      | some v => (h, some v)
      | none => (h, none)
    | _ => (h, none)
  | _ => (h, none)

/-- Property assignment: the proxy `set` trap returns `false` and touches
nothing; a plain data object is mutated. -/
def proxySet (h : Heap) (p : Nat) (prop : String) (v : HVal) : Heap × Bool :=
  match alist p h.objs with
  | some (.data fs) =>
    ({ h with objs := assocSet h.objs p (.data (assocSet fs prop v)) }, true)
  | _ => (h, false)

/-- Property deletion: the proxy `deleteProperty` trap returns `false`;
a plain data object loses the field. -/
def proxyDeleteProp (h : Heap) (p : Nat) (prop : String) : Heap × Bool :=
  match alist p h.objs with
  | some (.data fs) =>
    ({ h with objs := assocSet h.objs p (.data (fs.filter (fun q => q.1 ≠ prop))) }, true)
  | _ => (h, false)

/-- `defineProperty`: the proxy trap returns `false`; on a plain data
object it installs the field. -/
def proxyDefineProp (h : Heap) (p : Nat) (prop : String) (v : HVal) : Heap × Bool :=
  match alist p h.objs with
  | some (.data fs) =>
    ({ h with objs := assocSet h.objs p (.data (assocSet fs prop v)) }, true)
  | _ => (h, false)

/-- `setPrototypeOf`: the proxy trap returns `false`; on a plain data
object the prototype side-table is updated. -/
def proxySetProto (h : Heap) (p : Nat) (proto : Nat) : Heap × Bool :=
  match alist p h.objs with
  | some (.data _) => ({ h with protos := assocSet h.protos p proto }, true)
  | _ => (h, false)

/-- All addresses referenced by a heap value are below the bound. -/
def hvalBound (n : Nat) : HVal → Prop
  | .ref a => a < n
  | .str _ => True

instance (n : Nat) : (v : HVal) → Decidable (hvalBound n v)
  | .ref a => inferInstanceAs (Decidable (a < n))
  | .str _ => inferInstanceAs (Decidable True)

/-- All addresses referenced by a heap object are below the bound. -/
def hobjBound (n : Nat) : HObj → Prop
  | .data fs => ∀ f ∈ fs, hvalBound n f.2
  | .proxy t => t < n

instance (n : Nat) : (o : HObj) → Decidable (hobjBound n o)
  | .data fs => inferInstanceAs (Decidable (∀ f ∈ fs, hvalBound n f.2))
  | .proxy t => inferInstanceAs (Decidable (t < n))

/-- Heap well-formedness: every `proxyCache` entry points at a live proxy
of its key, and every address recorded anywhere (object addresses, cache
entries, proxy targets and object-field references) is below the
allocation counter. -/
def wfHeap (h : Heap) : Prop :=
  (∀ pr ∈ h.proxyCache, alist pr.2 h.objs = some (HObj.proxy pr.1)) ∧
    (∀ pr ∈ h.proxyCache, pr.1 < h.next ∧ pr.2 < h.next) ∧
    (∀ pr ∈ h.objs, pr.1 < h.next ∧ hobjBound h.next pr.2)

instance (h : Heap) : Decidable (wfHeap h) := by
  unfold wfHeap
  infer_instance

/-! ### `withConfig` and `clone` instance identity

`withConfig` computes a cache key `proxy::<language>::<scopeKey>`, checks
the instance cache for it, and otherwise returns a `new Proxy(this, ...)`
— without ever storing it (no `cache.set` exists in `withConfig`, and
`buildTranslationObject` stores only keys of the form
`<language>::<scopeKey>`).  `clone` always constructs a `new LocL`.
Instance identity is modelled by an allocation counter. -/

/-- The portion of the instance state that decides `withConfig`/`clone`
identity: the cache restricted to instance-valued entries, and the
allocation counter (distinct objects have distinct identities). -/
structure WCState where
  cache : List (String × Nat)
  nextId : Nat
deriving DecidableEq

/-- `LocL.withConfig` as an identity-level transition: a cache hit
returns the stored instance, a miss allocates a fresh proxy instance —
and, as in the source, performs no cache insertion. -/
def withConfigFn (s : WCState) (trLang : String) (cfgLang : Option String)
    (cfgScope : ScopeV) : WCState × Nat :=
  let key := "proxy::" ++ (cfgLang.getD trLang) ++ "::" ++ scopeKeyOf cfgScope
  match alist key s.cache with
  | some id => (s, id)
  | none => ({ s with nextId := s.nextId + 1 }, s.nextId)

/-- `LocL.clone`: always a `new LocL(...)`, i.e. a fresh instance. -/
def cloneFn (s : WCState) : WCState × Nat :=
  ({ s with nextId := s.nextId + 1 }, s.nextId)

/-! ### Concrete fixtures -/

/-- An English-like plural rule: category `one` exactly for count 1. -/
def selEn : String → Option JV → String := fun _ c =>
  match c with
  | some (.num 1) => "one"
  | _ => "other"

/-- A translator over the given resources with the default configuration
(`devMode = false`, `useCache = true`) and concrete stand-ins for the
`Intl` collaborators. -/
def mkTr (res : List (String × JV)) : Tr :=
  { resources := res
    language := "en"
    fallbackLanguage := "en"
    scope := .undef
    devMode := false
    useCache := true
    selFor := selEn
    numFor := fun _ n => if n = 1 then "1" else "N"
    dateFor := fun _ _ => "DATE"
    formatters := [] }

/-- A translator with empty resources, used for interpolation-only
statements. -/
def trX : Tr := mkTr []

/-- Resources holding a plain string under the base key `a` and no
plural-suffixed variants. -/
def trApples : Tr := mkTr [("en", .obj [("a", .str "apples")])]

/-- Resources with an object-form plural under `m`. -/
def trMsg : Tr :=
  mkTr [("en", .obj [("m", .obj [("one", .str "One"), ("other", .str "Many")])])]

/-- Resources `\x7ba: \x7bb: x, c: y\x7d\x7d` under an array scope whose
second path is a proper prefix of the first. -/
def trMerge : Tr :=
  { mkTr [("en", .obj [("a", .obj [("b", .str "x"), ("c", .str "y")])])] with
      scope := .multi ["a.b", "a"] }

/-- Resources `\x7ba: \x7bb: X\x7d\x7d` with a configurable cache flag,
used by the caching claim. -/
def trCacheDemo (uc : Bool) : Tr :=
  { mkTr [("en", .obj [("a", .obj [("b", .str "X")])])] with useCache := uc }

/-! ### Elementary lemmas about the string primitives -/

/-- Every list is a prefix of itself. -/
theorem isPre_self (s : List Char) : isPre s s = true := by
  induction s with
  | nil => rfl
  | cons c cs ih => simp [isPre, ih]

/-- Replacing a whole string by `r` yields `r`. -/
theorem jsReplaceFirst_self (s r : List Char) : jsReplaceFirst s s r = r := by
  cases s with
  | nil => rfl
  | cons c cs =>
    simp [jsReplaceFirst, isPre_self, List.drop_length]

/-- When a template's token scan yields exactly one token spanning the
whole string, interpolation reduces to that token's resolution. -/
theorem interpolate_single_full_token (tr : Tr) (vals : Values) (s : String)
    (inner : List Char) (h : scanTokens s.data = [(s.data, inner)]) :
    interpolate tr (some (.str s)) (some vals)
      = some (.str (String.mk (resolveToken tr vals s.data inner))) := by
  show some (JV.str (String.mk (interpCore tr s.data vals))) = _
  unfold interpCore
  rw [h]
  show some (JV.str (String.mk
    (jsReplaceFirst s.data s.data (resolveToken tr vals s.data inner)))) = _
  rw [jsReplaceFirst_self]

/-- First-occurrence replacement skips over a prefix free of the
pattern's head character. -/
theorem jsReplaceFirst_append_left (s1 s2 repl : List Char) (p : Char) (pt : List Char)
    (hp : p ∉ s1) :
    jsReplaceFirst (s1 ++ s2) (p :: pt) repl = s1 ++ jsReplaceFirst s2 (p :: pt) repl := by
  induction s1 with
  | nil => rfl
  | cons c cs ih =>
    have hpc : ¬(p = c) := by
      intro h
      exact hp (by simp [h])
    have hcs : p ∉ cs := by
      intro h
      exact hp (List.mem_cons_of_mem _ h)
    simp [jsReplaceFirst, isPre, hpc, ih hcs]

/-- Overwriting lookup: after `assocSet` the key maps to the new value,
whatever was stored before. -/
theorem alist_assocSet_self {κ α : Type} [DecidableEq κ] (fs : List (κ × α)) (k : κ) (x : α) :
    alist k (assocSet fs k x) = some x := by
  induction fs with
  | nil => simp [assocSet, alist]
  | cons p rest ih =>
    by_cases h : p.1 = k
    · simp [assocSet, alist, h]
    · simp [assocSet, alist, h, ih]

/-! ### Claim C2 -/

/-- C2: the claim says repeated identical `withConfig` overrides return
the same cached view instance.  In the source, `withConfig` computes the
cache key and checks the cache but never stores into it, so on a fresh
translator two identical calls allocate two distinct proxy instances and
leave the cache without the key; `clone` indeed always allocates a fresh
instance.  This theorem evaluates the model at that failing input. -/
theorem C2_withConfig_never_cached :
    withConfigFn ⟨[], 0⟩ "en" (some "en") .undef = (⟨[], 1⟩, 0) ∧
    withConfigFn ⟨[], 1⟩ "en" (some "en") .undef = (⟨[], 2⟩, 1) ∧
    (0 : Nat) ≠ 1 ∧
    cloneFn ⟨[], 2⟩ = (⟨[], 3⟩, 2) ∧ (2 : Nat) ≠ 0 := by
  exact ⟨rfl, rfl, by decide, rfl, by decide⟩

/-! ### Claim C6 -/

/-- C6 counterexample: the claim states replace-all-occurrences
semantics for each processed token.  With template
`\x7ba \x7bb\x7d\x7d \x7bb\x7d` and `b = "X"`, the second token's
replacement consumes the occurrence of `\x7bb\x7d` embedded in the first
span, and the token's own span survives in the output — under the
claimed semantics every occurrence of `\x7bb\x7d` would have been
replaced, yielding `\x7ba X\x7d X`. -/
theorem C6_counterexample :
    interpolate trX (some (.str "\x7ba \x7bb\x7d\x7d \x7bb\x7d")) (some [("b", .str "X")])
      = some (.str "\x7ba X\x7d \x7bb\x7d") ∧
    (some (JV.str "\x7ba X\x7d \x7bb\x7d") : Option JV) ≠ some (.str "\x7ba X\x7d X") := by
  refine ⟨rfl, ?_⟩
  simp

/-- C6 (amended): substitution replaces, for each token in discovery
order, only the FIRST occurrence of the token's raw span in the current
output.  Since each occurrence of an identical token is discovered as its
own token, n identical tokens undergo n single-occurrence replacements
(first conjunct), and an occurrence of the raw span embedded in an
earlier span can be consumed instead of the token's own span (second
conjunct). -/
theorem C6_first_occurrence_replacement (v : List Char) (hv : '{' ∉ v) :
    interpCore trX "\x7bx\x7d \x7bx\x7d".data [("x", .str (String.mk v))]
      = v ++ ' ' :: v ∧
    interpCore trX "\x7ba \x7bb\x7d\x7d \x7bb\x7d".data [("b", .str (String.mk v))]
      = "\x7ba ".data ++ v ++ "\x7d \x7bb\x7d".data := by
  constructor
  · show jsReplaceFirst
      (jsReplaceFirst "\x7bx\x7d \x7bx\x7d".data "\x7bx\x7d".data v) "\x7bx\x7d".data v
      = v ++ ' ' :: v
    rw [show jsReplaceFirst "\x7bx\x7d \x7bx\x7d".data "\x7bx\x7d".data v
        = (v ++ [' ']) ++ "\x7bx\x7d".data by simp [jsReplaceFirst, isPre]]
    rw [jsReplaceFirst_append_left (v ++ [' ']) _ v '{' ('x' :: '}' :: [])
      (by simp [hv])]
    rw [jsReplaceFirst_self]
    simp
  · rfl

/-- C6 witness: the amended statement at `v = ['V']`. -/
theorem C6_first_occurrence_replacement_witness :
    ('{' ∉ ['V']) ∧
    interpCore trX "\x7bx\x7d \x7bx\x7d".data [("x", .str (String.mk ['V']))]
      = ['V'] ++ ' ' :: ['V'] :=
  ⟨by decide, (C6_first_occurrence_replacement ['V'] (by decide)).1⟩

/-! ### Claim C7 -/

/-- C7 counterexample: under scope `["a.b", "a"]` over
`\x7ba: \x7bb: x, c: y\x7d\x7d`, the later path `a` overwrites the
segment `a` already merged by the earlier path `a.b`: the result contains
`a.c`, which first-writer-wins would have excluded. -/
theorem C7_counterexample :
    resVal (buildTranslationObject trMerge [] "en")
      = .ok (some (.obj [("a", .obj [("b", .str "x"), ("c", .str "y")])])) ∧
    (some (JV.obj [("a", .obj [("b", .str "x"), ("c", .str "y")])]) : Option JV)
      ≠ some (.obj [("a", .obj [("b", .str "x")])]) := by
  refine ⟨rfl, ?_⟩
  simp

/-- The shape produced by grafting a value along a path into an empty
synthetic container. -/
def nestBoxes : List String → JV → CN
  | [], v => .graft v
  | [k], v => .box [(k, .graft v)]
  | k :: k' :: rest, v => .box [(k, nestBoxes (k' :: rest) v)]

/-- Grafting a nonempty path into an empty container produces exactly the
nested singleton boxes. -/
theorem graftPath_empty_box (k : String) (segs : List String) (v : JV) :
    graftPath (.box []) (k :: segs) v = some (nestBoxes (k :: segs) v) := by
  induction segs generalizing k with
  | nil => rfl
  | cons k' rest ih =>
    show (graftPath (CN.box []) (k' :: rest) v).map
        (fun c2 => CN.box (assocSet ([] : List (String × CN)) k c2))
      = some (nestBoxes (k :: k' :: rest) v)
    rw [ih k']
    rfl

/-- C7 (amended): each truthy path is grafted at its dotted location with
intermediate containers created as needed, and falsy/absent paths are
skipped; existing intermediate containers are preserved
(`acc[k] ??= \x7b\x7d`); but at the final segment the merge performs the
unconditional assignment `acc[k] = val`, so a later-iterated path whose
final segment collides with an already merged segment OVERWRITES it
(last-writer-wins at the leaf, not first-writer-wins). -/
theorem C7_array_scope_merge :
    (∀ (segs : List String) (v : JV), segs ≠ [] →
      graftPath (.box []) segs v = some (nestBoxes segs v)) ∧
    (∀ (langObj : Option JV) (p : String) (mods : List String),
      (∀ v, walkPath langObj (splitOnDot p) = some v → truthy v = false) →
      buildCombined langObj (p :: mods) = buildCombined langObj mods) ∧
    (∀ (fs : List (String × CN)) (k k' : String) (rest : List String) (v : JV) (c : CN),
      alist k fs = some c →
      graftPath (.box fs) (k :: k' :: rest) v
        = (graftPath c (k' :: rest) v).map (fun c2 => .box (assocSet fs k c2))) ∧
    (∀ (fs : List (String × CN)) (k : String) (v : JV),
      graftPath (.box fs) [k] v = some (.box (assocSet fs k (.graft v))) ∧
      alist k (assocSet fs k (CN.graft v)) = some (.graft v)) := by
  refine ⟨?_, ?_, ?_, ?_⟩
  · intro segs v hne
    match segs with
    | [] => exact absurd rfl hne
    | k :: rest => exact graftPath_empty_box k rest v
  · intro langObj p mods hfalsy
    unfold buildCombined
    rw [List.foldl_cons]
    congr 1
    show (match walkPath langObj (splitOnDot p) with
      | some v => if truthy v then graftPath (.box []) (splitOnDot p) v else some (.box [])
      | none => some (CN.box [])) = some (CN.box [])
    cases hw : walkPath langObj (splitOnDot p) with
    | none => rfl
    | some v => simp [hfalsy v hw]
  · intro fs k k' rest v c hc
    show (graftPath ((alist k fs).getD (.box [])) (k' :: rest) v).map
        (fun c2 => CN.box (assocSet fs k c2))
      = (graftPath c (k' :: rest) v).map (fun c2 => CN.box (assocSet fs k c2))
    rw [hc]
    rfl
  · intro fs k v
    exact ⟨rfl, alist_assocSet_self fs k (.graft v)⟩

/-- C7 witness: the amended statement's graft-creation and leaf-overwrite
parts at concrete inputs. -/
theorem C7_array_scope_merge_witness :
    graftPath (.box []) ["a", "b"] (.str "x")
      = some (nestBoxes ["a", "b"] (.str "x")) ∧
    graftPath (.box [("a", .graft (.str "old"))]) ["a"] (.str "new")
      = some (.box (assocSet [("a", .graft (.str "old"))] "a" (.graft (.str "new")))) :=
  ⟨C7_array_scope_merge.1 ["a", "b"] (.str "x") (by simp),
    (C7_array_scope_merge.2.2.2 [("a", .graft (.str "old"))] "a" (.str "new")).1⟩

/-! ### Claim C10 -/

/-- C10 counterexample: after a stray closing brace the scan's depth is
`-1`, so a doubly-nested group's inner braces toggle depth `0 → 1 → 0`
and the inner group IS recognised and substituted — the claim asserts
every brace group after a stray `\x7d` stays verbatim. -/
theorem C10_counterexample :
    interpolate trX (some (.str "\x7d \x7b \x7bx\x7d \x7d")) (some [("x", .str "1")])
      = some (.str "\x7d \x7b 1 \x7d") ∧
    (some (JV.str "\x7d \x7b 1 \x7d") : Option JV)
      ≠ some (.str "\x7d \x7b \x7bx\x7d \x7d") := by
  refine ⟨rfl, ?_⟩
  simp

/-- C10 (amended): a stray closing brace makes the depth negative and a
later balanced group is not recognised at its outermost level — a
non-nested group after the stray is left verbatim for every value bag
(first conjunct) — but a group nested one level inside such a group has
its braces toggling depth `0 → 1`, IS recognised as a token, and is
substituted (second conjunct). -/
theorem C10_stray_brace_scan (vals : Values) (v : List Char) :
    interpolate trX (some (.str "\x7d \x7bx\x7d")) (some vals)
      = some (.str "\x7d \x7bx\x7d") ∧
    interpCore trX "\x7d \x7b \x7bx\x7d \x7d".data [("x", .str (String.mk v))]
      = "\x7d \x7b ".data ++ v ++ " \x7d".data := by
  exact ⟨rfl, rfl⟩

/-! ### Claim C8 -/

/-- C8 counterexample: the select-token comma split is not top-level — a
comma inside a case text is consumed and the pieces are rejoined with a
single space, so case text `a, b` becomes `a b`; and an inner text
containing `select` with a non-`select` type tag is replaced by the EMPTY
string, it is not left in place as an unresolved token. -/
theorem C8_counterexample :
    interpolate trX (some (.str "\x7bg, select, other \x7ba, b\x7d\x7d"))
        (some [("g", .str "x")]) = some (.str "a b") ∧
    ("a b" : String) ≠ "a, b" ∧
    interpolate trX (some (.str "\x7bselecting\x7d")) (some [("selecting", .str "yes")])
      = some (.str "") ∧
    ("" : String) ≠ "\x7bselecting\x7d" := by
  exact ⟨rfl, by decide, rfl, by decide⟩

/-- C8 (amended): a token whose inner text contains `select` is split on
EVERY comma (pieces trimmed); when the second piece equals `select` the
value bag's field is stringified (defaulting to the literal `"other"`),
the matching case from the remainder — rejoined with single spaces, so
commas inside case texts become spaces — is substituted, falling back to
the `other` case and then to the empty string; when the second piece is
not `select` the token is replaced by the empty string. -/
theorem C8_select_resolution (v : String) :
    interpolate trX
        (some (.str "\x7bg, select, male \x7bHe\x7d female \x7bShe\x7d other \x7bThey\x7d\x7d"))
        (some [("g", .str v)])
      = some (.str (if v = "male" then "He" else if v = "female" then "She" else "They")) ∧
    interpolate trX (some (.str "\x7bselecting\x7d")) (some [("selecting", .str v)])
      = some (.str "") ∧
    interpolate trX (some (.str "\x7bg, select, other \x7ba, b\x7d\x7d")) (some [("g", .str v)])
      = some (.str "a b") := by
  refine ⟨?_, rfl, ?_⟩
  · rw [interpolate_single_full_token trX [("g", .str v)]
      "\x7bg, select, male \x7bHe\x7d female \x7bShe\x7d other \x7bThey\x7d\x7d"
      "g, select, male \x7bHe\x7d female \x7bShe\x7d other \x7bThey\x7d".data rfl]
    by_cases h1 : v = "male"
    · subst h1; rfl
    · by_cases h2 : v = "female"
      · subst h2; rfl
      · by_cases h3 : v = "other"
        · subst h3
          simp [h1, h2]
          rfl
        · have hcm : alist v [("male", "He"), ("female", "She"), ("other", "They")]
              = (none : Option String) := by
            unfold alist
            rw [if_neg (fun h => h1 h.symm)]
            unfold alist
            rw [if_neg (fun h => h2 h.symm)]
            unfold alist
            rw [if_neg (fun h => h3 h.symm)]
            rfl
          show some (JV.str (String.mk
            ((((alist v [("male", "He"), ("female", "She"), ("other", "They")]).or
              (some "They")).getD "").data)))
            = some (JV.str (if v = "male" then "He" else if v = "female" then "She" else "They"))
          rw [hcm]
          simp [h1, h2]
  · rw [interpolate_single_full_token trX [("g", .str v)]
      "\x7bg, select, other \x7ba, b\x7d\x7d" "g, select, other \x7ba, b\x7d".data rfl]
    by_cases h : v = "other"
    · subst h; rfl
    · have hcm : alist v [("other", "a b")] = (none : Option String) := by
        unfold alist
        rw [if_neg (fun hh => h hh.symm)]
        rfl
      show some (JV.str (String.mk
        ((((alist v [("other", "a b")]).or (some "a b")).getD "").data)))
        = some (JV.str "a b")
      rw [hcm]
      rfl

/-! ### Claim C1 -/

/-- A successful association lookup exhibits a member of the list. -/
theorem alist_mem {κ α : Type} [DecidableEq κ] {l : List (κ × α)} {k : κ} {v : α}
    (h : alist k l = some v) : (k, v) ∈ l := by
  induction l with
  | nil => simp [alist] at h
  | cons p rest ih =>
    obtain ⟨k', v'⟩ := p
    unfold alist at h
    split at h
    · next heq =>
      injection h with h2
      subst heq
      subst h2
      exact List.mem_cons_self _ _
    · exact List.mem_cons_of_mem _ (ih h)

/-- Prepending a binding with a different key does not change lookups. -/
theorem alist_cons_ne {κ α : Type} [DecidableEq κ] {k k' : κ} (v : α) (l : List (κ × α))
    (hne : k' ≠ k) : alist k ((k', v) :: l) = alist k l := by
  simp [alist, hne]

/-- `makeReadOnly` on a well-formed heap with a live target: the result
heap is well formed, the returned address is a proxy of the target,
wrapping is idempotent (the memoised wrapper is returned on a second
call), and the lookup of every previously allocated address is
unchanged. -/
theorem makeReadOnly_spec (h : Heap) (b : Nat) (hw : wfHeap h) (hb : b < h.next) :
    wfHeap (makeReadOnly h b).1 ∧
    alist (makeReadOnly h b).2 (makeReadOnly h b).1.objs = some (.proxy b) ∧
    makeReadOnly (makeReadOnly h b).1 b = makeReadOnly h b ∧
    (∀ a, a < h.next → alist a (makeReadOnly h b).1.objs = alist a h.objs) := by
  obtain ⟨hw1, hw2, hw3⟩ := hw
  cases hm : alist b h.proxyCache with
  | some p' =>
    have hmk : makeReadOnly h b = (h, p') := by
      unfold makeReadOnly
      rw [hm]
    rw [hmk]
    exact ⟨⟨hw1, hw2, hw3⟩, hw1 _ (alist_mem hm), hmk, fun a _ => rfl⟩
  | none =>
    have hmk : makeReadOnly h b =
        ({ objs := (h.next, HObj.proxy b) :: h.objs,
           proxyCache := (b, h.next) :: h.proxyCache,
           protos := h.protos,
           next := h.next + 1 }, h.next) := by
      unfold makeReadOnly
      rw [hm]
    rw [hmk]
    have hobjsNe : ∀ a, a < h.next → h.next ≠ a := fun a ha hcontra => by omega
    refine ⟨⟨?_, ?_, ?_⟩, ?_, ?_, ?_⟩
    · intro pr hpr
      rcases List.mem_cons.mp hpr with hhd | htl
      · subst hhd
        simp [alist]
      · have hlt := (hw2 _ htl).2
        show alist pr.2 ((h.next, HObj.proxy b) :: h.objs) = _
        rw [alist_cons_ne _ _ (hobjsNe _ hlt)]
        exact hw1 _ htl
    · intro pr hpr
      rcases List.mem_cons.mp hpr with hhd | htl
      · subst hhd
        exact ⟨by show b < h.next + 1; omega, by show h.next < h.next + 1; omega⟩
      · obtain ⟨h1, h2⟩ := hw2 _ htl
        exact ⟨by show pr.1 < h.next + 1; omega, by show pr.2 < h.next + 1; omega⟩
    · intro pr hpr
      rcases List.mem_cons.mp hpr with hhd | htl
      · subst hhd
        refine ⟨by show h.next < h.next + 1; omega, ?_⟩
        show b < h.next + 1
        omega
      · obtain ⟨hlt, hbnd⟩ := hw3 _ htl
        refine ⟨by show pr.1 < h.next + 1; omega, ?_⟩
        cases hobj : pr.2 with
        | data fs =>
          rw [hobj] at hbnd
          intro f hf
          have hfb := hbnd f hf
          cases hval : f.2 with
          | ref a =>
            rw [hval] at hfb
            show a < h.next + 1
            have : a < h.next := hfb
            omega
          | str s => trivial
        | proxy t =>
          rw [hobj] at hbnd
          show t < h.next + 1
          have : t < h.next := hbnd
          omega
    · simp [alist]
    · show makeReadOnly
        { objs := (h.next, HObj.proxy b) :: h.objs,
          proxyCache := (b, h.next) :: h.proxyCache,
          protos := h.protos,
          next := h.next + 1 } b = _
      unfold makeReadOnly
      simp [alist]
    · intro a ha
      exact alist_cons_ne _ _ (hobjsNe _ ha)

/-- C1: every object handed out by the translator's wrapping layer is a
proxy whose mutation traps reject property assignment, deletion,
`defineProperty` and `setPrototypeOf` with the heap — the underlying
tree — unchanged; and property reads that produce an object always
produce the memoised read-only wrapper of that object, so reading the
same property again yields the identical wrapper and leaves the heap
unchanged. -/
theorem C1_readonly_proxy_wrapping (h : Heap) (p t : Nat)
    (hw : wfHeap h) (hp : alist p h.objs = some (.proxy t)) :
    (∀ k v, proxySet h p k v = (h, false)) ∧
    (∀ k, proxyDeleteProp h p k = (h, false)) ∧
    (∀ k v, proxyDefineProp h p k v = (h, false)) ∧
    (∀ q, proxySetProto h p q = (h, false)) ∧
    (∀ k b h1, proxyGet h p k = (h1, some (.ref b)) →
      wfHeap h1 ∧
      (∃ t', alist b h1.objs = some (.proxy t')) ∧
      proxyGet h1 p k = (h1, some (.ref b))) := by
  refine ⟨?_, ?_, ?_, ?_, ?_⟩
  · intro k v
    simp only [proxySet, hp]
  · intro k
    simp only [proxyDeleteProp, hp]
  · intro k v
    simp only [proxyDefineProp, hp]
  · intro q
    simp only [proxySetProto, hp]
  · intro k b h1 hget
    have hpLt : p < h.next := (hw.2.2 _ (alist_mem hp)).1
    unfold proxyGet at hget
    simp only [hp] at hget
    cases ht : alist t h.objs with
    | none =>
      simp only [ht] at hget
      exact absurd (congrArg Prod.snd hget) (by simp)
    | some tobj =>
      simp only [ht] at hget
      have htLt : t < h.next := (hw.2.2 _ (alist_mem ht)).1
      cases tobj with
      | proxy t2 => exact absurd (congrArg Prod.snd hget) (by simp)
      | data fs =>
        cases hf : alist k fs with
        | none =>
          simp only [hf] at hget
          exact absurd (congrArg Prod.snd hget) (by simp)
        | some fv =>
          simp only [hf] at hget
          cases fv with
          | str s => exact absurd (congrArg Prod.snd hget) (by simp)
          | ref b0 =>
            have hb0 : b0 < h.next := by
              have hbo : hobjBound h.next (HObj.data fs) := (hw.2.2 _ (alist_mem ht)).2
              exact hbo _ (alist_mem hf)
            obtain ⟨hw', hproxy, hidem, hext⟩ := makeReadOnly_spec h b0 hw hb0
            have h1eq : (makeReadOnly h b0).1 = h1 := congrArg Prod.fst hget
            have hbeq : (makeReadOnly h b0).2 = b := by
              have h2eq : some (HVal.ref (makeReadOnly h b0).2) = some (.ref b) :=
                congrArg Prod.snd hget
              injection h2eq with hv
              injection hv
            subst h1eq
            subst hbeq
            refine ⟨hw', ⟨b0, hproxy⟩, ?_⟩
            unfold proxyGet
            simp only [hext p hpLt, hp, hext t htLt, ht, hf, hidem]

/-! ### Claim C3 -/

/-- Interpolation of a defined value never yields `undefined`. -/
theorem interpolate_some_ne_none (tr : Tr) (v : JV) (values : Option Values) :
    interpolate tr (some v) values ≠ none := by
  cases values with
  | none => simp [interpolate]
  | some vs => cases v <;> simp [interpolate]

/-- C3 counterexample: with resources `\x7ba: "apples"\x7d` and
`t("a", \x7bcount: 5\x7d)`, the suffixed key `a_other` is absent in both
languages, the plural check yields `undefined`, and `t` FALLS BACK to the
normal lookup of the base key, returning `"apples"` — the claim asserts
the overall result is `undefined` with no fallback to the base key. -/
theorem C3_counterexample :
    tFn trApples [] "a" (some [("count", .num 5)]) none
      = .ok (some (.str "apples"), [], []) ∧
    (some (JV.str "apples") : Option JV) ≠ none := by
  refine ⟨rfl, ?_⟩
  simp

/-- C3 (amended): when `values.count` is defined and the key has no
recognised plural suffix, the translator computes the plural category,
looks up the suffixed key through the fallback chain, and — when that
lookup is defined — returns its interpolation, short-circuiting normal
lookup and the explicit formatter; when the suffixed key is absent in
both languages the plural check yields `undefined` and `t` proceeds with
the normal lookup of the base key (interpolated, with identity fallback
to the key). -/
theorem C3_implicit_plural (tr : Tr) (cache : Cache) (key : String) (values : Values)
    (cnt : JV) (fmt : FmtOpt)
    (hcount : alist "count" values = some cnt)
    (hsuffix : hasPluralSuffix key = false)
    (hkey : key ≠ "") :
    (∀ r c1 w1,
      lookupWithFallback tr cache (key ++ "_" ++ tr.selFor tr.language (some cnt)) none
          = .ok (some r, c1, w1) →
      tFn tr cache key (some values) fmt
        = .ok (interpolate tr (some r) (some values), c1, w1)) ∧
    (∀ c1 w1,
      lookupWithFallback tr cache (key ++ "_" ++ tr.selFor tr.language (some cnt)) none
          = .ok (none, c1, w1) →
      ∀ r2 c2 w2,
        lookupWithFallback tr c1 key none = .ok (r2, c2, w2) →
        tFn tr cache key (some values) none
          = .ok (some ((interpolate tr r2 (some values)).getD (.str key)), c2, w1 ++ w2)) := by
  constructor
  · intro r c1 w1 hlook
    have hcp : checkPlural tr cache key (some values)
        = .ok (interpolate tr (some r) (some values), c1, w1) := by
      unfold checkPlural
      simp [hcount, hsuffix, hlook]
    obtain ⟨pv, hpv⟩ : ∃ pv, interpolate tr (some r) (some values) = some pv := by
      cases hi : interpolate tr (some r) (some values) with
      | none => exact absurd hi (interpolate_some_ne_none tr r (some values))
      | some pv => exact ⟨pv, rfl⟩
    unfold tFn
    rw [if_neg hkey, hcp, hpv]
  · intro c1 w1 hlook r2 c2 w2 hlook2
    have hcp : checkPlural tr cache key (some values) = .ok (none, c1, w1) := by
      unfold checkPlural
      simp [hcount, hsuffix, hlook, interpolate]
    unfold tFn
    rw [if_neg hkey, hcp]
    simp [hlook2]

/-- C3 fixture: a resource tree holding only the suffixed key
`p_other`. -/
def trPear : Tr := mkTr [("en", .obj [("p_other", .str "pears")])]

/-- C3 witness: the short-circuit branch of the amended statement at a
concrete translator. -/
theorem C3_implicit_plural_witness :
    tFn trPear [] "p" (some [("count", .num 5)]) none
      = .ok (interpolate trPear (some (.str "pears")) (some [("count", .num 5)]), [], []) :=
  (C3_implicit_plural trPear [] "p" [("count", .num 5)] (.num 5) none rfl rfl
    (by decide)).1 (.str "pears") [] [] rfl

/-! ### Claim C4 -/

/-- C4 counterexample: when nothing is found by the suffix chain the
bare key is returned UNINTERPOLATED — for the key `\x7bcount\x7d`,
interpolating it with the supplied values would give `"1"`, but `plural`
returns the raw key. -/
theorem C4_counterexample :
    pluralFn trX [] "\x7bcount\x7d" [("count", .num 1)] none
      = .ok (.str "\x7bcount\x7d", [], []) ∧
    interpolate trX (some (.str "\x7bcount\x7d")) (some [("count", .num 1)])
      = some (.str "1") ∧
    JV.str "\x7bcount\x7d" ≠ .str "1" := by
  refine ⟨rfl, rfl, ?_⟩
  simp

/-- C4 (amended): `plural(key, values)` computes the category for
`values.count`; if the base lookup through the fallback chain yields an
object, the selected category's entry is interpolated when present, else
the object's `other` entry is interpolated with a dev-mode warning, else
the bare key is returned; otherwise the suffix chain
`key_category`, `key_other`, `key` is tried in order through the full
fallback chain and the first hit is interpolated — but when nothing at
all is found the bare key is returned UNinterpolated. -/
theorem C4_explicit_plural (tr : Tr) (cache : Cache) (key : String) (values : Values) :
    (∀ fs c1 w1,
      lookupWithFallback tr cache key none = .ok (some (.obj fs), c1, w1) →
      (∀ cv, alist (tr.selFor tr.language (alist "count" values)) fs = some cv →
        pluralFn tr cache key values none
          = .ok ((interpolate tr (some cv) (some values)).getD (.str key), c1, w1)) ∧
      (alist (tr.selFor tr.language (alist "count" values)) fs = none →
        (∀ ov, alist "other" fs = some ov →
          pluralFn tr cache key values none
            = .ok ((interpolate tr (some ov) (some values)).getD (.str key), c1,
                w1 ++ (if tr.devMode then [msgPlural key tr.language] else []))) ∧
        (alist "other" fs = none →
          pluralFn tr cache key values none
            = .ok (.str key, c1,
                w1 ++ (if tr.devMode then [msgPlural key tr.language] else []))))) ∧
    (∀ bv c1 w1,
      lookupWithFallback tr cache key none = .ok (bv, c1, w1) →
      (∀ fs, bv ≠ some (.obj fs)) →
      (∀ v c2 w2,
        lookupWithFallback tr c1 (key ++ "_" ++ tr.selFor tr.language (alist "count" values))
            none = .ok (some v, c2, w2) →
        pluralFn tr cache key values none
          = .ok ((interpolate tr (some v) (some values)).getD (.str key), c2, w1 ++ w2)) ∧
      (∀ c2 w2,
        lookupWithFallback tr c1 (key ++ "_" ++ tr.selFor tr.language (alist "count" values))
            none = .ok (none, c2, w2) →
        (∀ v c3 w3,
          lookupWithFallback tr c2 (key ++ "_other") none = .ok (some v, c3, w3) →
          pluralFn tr cache key values none
            = .ok ((interpolate tr (some v) (some values)).getD (.str key), c3,
                w1 ++ w2 ++ w3)) ∧
        (∀ c3 w3,
          lookupWithFallback tr c2 (key ++ "_other") none = .ok (none, c3, w3) →
          ∀ r3 c4 w4,
            lookupWithFallback tr c3 key none = .ok (r3, c4, w4) →
            pluralFn tr cache key values none
              = .ok ((interpolate tr r3 (some values)).getD (.str key), c4,
                  w1 ++ w2 ++ w3 ++ w4)))) := by
  constructor
  · intro fs c1 w1 hbase
    constructor
    · intro cv hcv
      unfold pluralFn
      simp [hbase, hcv]
    · intro hcat
      constructor
      · intro ov hov
        unfold pluralFn
        simp [hbase, hcat, hov]
      · intro hother
        unfold pluralFn
        simp [hbase, hcat, hother]
  · intro bv c1 w1 hbase hne
    have hbv : bv = none ∨ (∃ s, bv = some (.str s)) ∨ (∃ n, bv = some (.num n)) ∨
        (∃ d, bv = some (.date d)) := by
      cases bv with
      | none => exact Or.inl rfl
      | some v =>
        cases v with
        | obj fs => exact absurd rfl (hne fs)
        | str s => exact Or.inr (Or.inl ⟨s, rfl⟩)
        | num n => exact Or.inr (Or.inr (Or.inl ⟨n, rfl⟩))
        | date d => exact Or.inr (Or.inr (Or.inr ⟨d, rfl⟩))
    constructor
    · intro v c2 w2 hs1
      unfold pluralFn
      rcases hbv with h | ⟨s, h⟩ | ⟨n, h⟩ | ⟨d, h⟩ <;> subst h <;> simp [hbase, hs1]
    · intro c2 w2 hs1
      constructor
      · intro v c3 w3 hs2
        unfold pluralFn
        rcases hbv with h | ⟨s, h⟩ | ⟨n, h⟩ | ⟨d, h⟩ <;> subst h <;> simp [hbase, hs1, hs2]
      · intro c3 w3 hs2 r3 c4 w4 hs3
        unfold pluralFn
        rcases hbv with h | ⟨s, h⟩ | ⟨n, h⟩ | ⟨d, h⟩ <;> subst h <;>
          simp [hbase, hs1, hs2, hs3]

/-- C4 witness: the object-form branch of the amended statement at a
concrete translator with an object plural under `m`. -/
theorem C4_explicit_plural_witness :
    pluralFn trMsg [] "m" [("count", .num 1)] none
      = .ok ((interpolate trMsg (some (.str "One"))
          (some [("count", .num 1)])).getD (.str "m"), [], []) :=
  ((C4_explicit_plural trMsg [] "m" [("count", .num 1)]).1
    [("one", .str "One"), ("other", .str "Many")] [] [] rfl).1 (.str "One") rfl

/-! ### Claim C5 -/

/-- With `devMode = false`, `buildTranslationObject` emits no warnings. -/
theorem build_warn_nil (tr : Tr) (cache : Cache) (lang : String)
    (hdev : tr.devMode = false) {res : Option JV × Cache × List String}
    (h : buildTranslationObject tr cache lang = .ok res) : res.2.2 = [] := by
  unfold buildTranslationObject at h
  cases hs : tr.scope with
  | undef =>
    simp only [hs] at h
    cases h
    rfl
  | single s =>
    simp only [hs] at h
    by_cases hse : s = ""
    · rw [if_pos hse] at h
      cases h
      rfl
    · rw [if_neg hse] at h
      cases hcl : (if tr.useCache then lookupC cache (lang ++ "::" ++ s) else none) with
      | some v =>
        simp only [hcl] at h
        cases h
        rfl
      | none =>
        simp only [hcl] at h
        cases h
        simp [hdev]
  | multi mods =>
    simp only [hs] at h
    cases hcl : (if tr.useCache then
        lookupC cache (lang ++ "::" ++ scopeKeyOf (.multi mods)) else none) with
    | some v =>
      simp only [hcl] at h
      cases h
      rfl
    | none =>
      simp only [hcl] at h
      cases hbc : buildCombined (alist lang tr.resources) mods with
      | none =>
        simp only [hbc] at h
        simp at h
      | some cn =>
        simp only [hbc] at h
        cases h
        rfl

/-- With `devMode = false`, `lookupWithFallback` emits no warnings. -/
theorem lookup_warn_nil (tr : Tr) (cache : Cache) (key : String) (base : Option JV)
    (hdev : tr.devMode = false) {res : Option JV × Cache × List String}
    (h : lookupWithFallback tr cache key base = .ok res) : res.2.2 = [] := by
  unfold lookupWithFallback at h
  have hmain : ∀ (b : Option JV) (c1 : Cache) (w1 : List String), w1 = [] →
      (match findTranslation (splitOnDot key) b with
        | some v =>
          Except.ok (some v, c1,
            w1 ++ (if (findTranslation (splitOnDot key) b).isNone && tr.devMode then
              [msgKey key tr.language] else []))
        | none =>
          match buildTranslationObject tr c1 tr.fallbackLanguage with
          | .error e => .error e
          | .ok (fb, c2, w3) =>
            Except.ok (findTranslation (splitOnDot key) fb, c2,
              w1 ++ (if (findTranslation (splitOnDot key) b).isNone && tr.devMode then
                [msgKey key tr.language] else []) ++ w3 ++
                (if (findTranslation (splitOnDot key) fb).isNone && tr.devMode then
                  [msgKey key tr.fallbackLanguage] else []))) = .ok res →
      res.2.2 = [] := by
    intro b c1 w1 hw1 hh
    cases hft : findTranslation (splitOnDot key) b with
    | some v =>
      simp only [hft] at hh
      cases hh
      simp [hw1, hdev]
    | none =>
      simp only [hft] at hh
      cases hb2 : buildTranslationObject tr c1 tr.fallbackLanguage with
      | error e =>
        simp only [hb2] at hh
        simp at hh
      | ok t2 =>
        obtain ⟨fb, c2, w3⟩ := t2
        have hw3 : w3 = [] := build_warn_nil tr c1 tr.fallbackLanguage hdev hb2
        simp only [hb2] at hh
        cases hh
        simp [hw1, hw3, hdev]
  cases base with
  | some b =>
    exact hmain (some b) cache [] rfl h
  | none =>
    cases hb1 : buildTranslationObject tr cache tr.language with
    | error e =>
      rw [hb1] at h
      simp at h
    | ok t1 =>
      obtain ⟨b, c1, w1⟩ := t1
      rw [hb1] at h
      exact hmain b c1 w1 (build_warn_nil tr cache tr.language hdev hb1) h

/-- With `devMode = false`, `checkPlural` emits no warnings. -/
theorem checkPlural_warn_nil (tr : Tr) (cache : Cache) (key : String)
    (values : Option Values) (hdev : tr.devMode = false)
    {res : Option JV × Cache × List String}
    (h : checkPlural tr cache key values = .ok res) : res.2.2 = [] := by
  unfold checkPlural at h
  cases values with
  | none =>
    cases h
    rfl
  | some vs =>
    cases hcnt : alist "count" vs with
    | none =>
      simp only [hcnt] at h
      cases h
      rfl
    | some cnt =>
      simp only [hcnt] at h
      by_cases hsf : hasPluralSuffix key
      · rw [if_pos hsf] at h
        cases h
        rfl
      · rw [if_neg hsf] at h
        cases hlk : lookupWithFallback tr cache
            (key ++ "_" ++ tr.selFor tr.language (some cnt)) none with
        | error e =>
          simp only [hlk] at h
          simp at h
        | ok t1 =>
          obtain ⟨r, c1, w1⟩ := t1
          have hw1 := lookup_warn_nil tr cache
            (key ++ "_" ++ tr.selFor tr.language (some cnt)) none hdev hlk
          simp only [hlk] at h
          cases h
          exact hw1

/-- With `devMode = false`, `applyFormat` emits no warnings. -/
theorem applyFormat_warn_nil (tr : Tr) (value : JV) (fname : String)
    (args : Option (List String)) (hdev : tr.devMode = false) :
    (applyFormat tr value fname args).2 = [] := by
  unfold applyFormat
  cases alist fname tr.formatters with
  | none => simp [hdev]
  | some f => rfl

/-- With `devMode = false`, `get` emits no warnings. -/
theorem getFn_warn_nil (tr : Tr) (cache : Cache) (key : Option String)
    (hdev : tr.devMode = false) {res : Option JV × Cache × List String}
    (h : getFn tr cache key = .ok res) : res.2.2 = [] := by
  unfold getFn at h
  cases hb : buildTranslationObject tr cache tr.language with
  | error e =>
    simp [hb] at h
  | ok t1 =>
    obtain ⟨base, c1, w1⟩ := t1
    have hw1 : w1 = [] := build_warn_nil tr cache tr.language hdev hb
    simp only [hb] at h
    cases key with
    | none =>
      cases h
      exact hw1
    | some k =>
      have h' : (if k = "" then (Except.ok (base, c1, w1) : Res (Option JV))
          else match lookupWithFallback tr c1 k base with
            | .error e => .error e
            | .ok (r, c2, w2) => .ok (r, c2, w1 ++ w2)) = .ok res := h
      by_cases hk : k = ""
      · rw [if_pos hk] at h'
        cases h'
        exact hw1
      · rw [if_neg hk] at h'
        cases hlk : lookupWithFallback tr c1 k base with
        | error e =>
          simp [hlk] at h'
        | ok t2 =>
          obtain ⟨r, c2, w2⟩ := t2
          have hw2 : w2 = [] := lookup_warn_nil tr c1 k base hdev hlk
          simp only [hlk] at h'
          cases h'
          show w1 ++ w2 = []
          simp [hw1, hw2]

/-- With `devMode = false`, `t` emits no warnings. -/
theorem tFn_warn_nil (tr : Tr) (cache : Cache) (key : String) (values : Option Values)
    (fmt : FmtOpt) (hdev : tr.devMode = false) {res : Option JV × Cache × List String}
    (h : tFn tr cache key values fmt = .ok res) : res.2.2 = [] := by
  unfold tFn at h
  by_cases hk : key = ""
  · rw [if_pos hk] at h
    exact getFn_warn_nil tr cache none hdev h
  · rw [if_neg hk] at h
    cases hcp : checkPlural tr cache key values with
    | error e =>
      simp [hcp] at h
    | ok t1 =>
      obtain ⟨p, c1, w1⟩ := t1
      have hw1 : w1 = [] := checkPlural_warn_nil tr cache key values hdev hcp
      simp only [hcp] at h
      cases p with
      | some pv =>
        cases h
        exact hw1
      | none =>
        cases hlk : lookupWithFallback tr c1 key none with
        | error e =>
          simp [hlk] at h
        | ok t2 =>
          obtain ⟨r, c2, w2⟩ := t2
          have hw2 : w2 = [] := lookup_warn_nil tr c1 key none hdev hlk
          simp only [hlk] at h
          cases fmt with
          | none =>
            cases h
            show w1 ++ w2 = []
            simp [hw1, hw2]
          | some fa =>
            obtain ⟨fn, args⟩ := fa
            have h' : (if fn ≠ "" then
                (Except.ok (some (applyFormat tr ((interpolate tr r values).getD (.str key))
                    fn args).1, c2,
                  w1 ++ w2 ++ (applyFormat tr ((interpolate tr r values).getD (.str key))
                    fn args).2) : Res (Option JV))
                else .ok (some ((interpolate tr r values).getD (.str key)), c2, w1 ++ w2))
                = .ok res := h
            by_cases hfn : fn = ""
            · rw [if_neg (by simp [hfn] : ¬fn ≠ "")] at h'
              cases h'
              show w1 ++ w2 = []
              simp [hw1, hw2]
            · rw [if_pos hfn] at h'
              cases h'
              have hap := applyFormat_warn_nil tr
                ((interpolate tr r values).getD (.str key)) fn args hdev
              show w1 ++ w2 ++ _ = []
              simp [hw1, hw2, hap]

/-- With `devMode = false`, the explicit-formatter wrapper of `plural`
adds no warnings. -/
theorem plural_fmt_warn_nil (tr : Tr) (fmt : FmtOpt) (v : JV) (c : Cache)
    (w : List String) (hw : w = []) (hdev : tr.devMode = false)
    {res : JV × Cache × List String}
    (h : (match fmt with
      | some (fn, args) =>
        if fn ≠ "" then
          Except.ok ((applyFormat tr v fn args).1, c, w ++ (applyFormat tr v fn args).2)
        else Except.ok (v, c, w)
      | none => (Except.ok (v, c, w) : Res JV)) = .ok res) : res.2.2 = [] := by
  cases fmt with
  | none =>
    cases h
    exact hw
  | some fa =>
    obtain ⟨fn, args⟩ := fa
    have h' : (if fn ≠ "" then
        (Except.ok ((applyFormat tr v fn args).1, c,
          w ++ (applyFormat tr v fn args).2) : Res JV)
        else .ok (v, c, w)) = .ok res := h
    by_cases hfn : fn = ""
    · rw [if_neg (by simp [hfn] : ¬fn ≠ "")] at h'
      cases h'
      exact hw
    · rw [if_pos hfn] at h'
      cases h'
      have hap := applyFormat_warn_nil tr v fn args hdev
      show w ++ _ = []
      simp [hw, hap]

/-- With `devMode = false`, the suffix chain of `plural` (followed by the
formatter wrapper) emits no warnings. -/
theorem plural_suffix_fmt_warn_nil (tr : Tr) (c1 : Cache) (w1 : List String)
    (key : String) (values : Values) (fmt : FmtOpt)
    (hdev : tr.devMode = false) (hw1 : w1 = [])
    {res : JV × Cache × List String}
    (h : (match ((match lookupWithFallback tr c1
            (key ++ "_" ++ tr.selFor tr.language (alist "count" values)) none with
          | .error e => .error e
          | .ok (r1, c2, w2) =>
            match r1 with
            | some v =>
              Except.ok ((interpolate tr (some v) (some values)).getD (.str key), c2,
                w1 ++ w2)
            | none =>
              match lookupWithFallback tr c2 (key ++ "_other") none with
              | .error e => .error e
              | .ok (r2, c3, w3) =>
                match r2 with
                | some v =>
                  Except.ok ((interpolate tr (some v) (some values)).getD (.str key), c3,
                    w1 ++ w2 ++ w3)
                | none =>
                  match lookupWithFallback tr c3 key none with
                  | .error e => .error e
                  | .ok (r3, c4, w4) =>
                    Except.ok ((interpolate tr r3 (some values)).getD (.str key), c4,
                      w1 ++ w2 ++ w3 ++ w4)) : Res JV) with
        | .error e => (Except.error e : Res JV)
        | .ok (v, c, w) =>
          match fmt with
          | some (fn, args) =>
            if fn ≠ "" then
              Except.ok ((applyFormat tr v fn args).1, c, w ++ (applyFormat tr v fn args).2)
            else Except.ok (v, c, w)
          | none => Except.ok (v, c, w)) = .ok res) :
    res.2.2 = [] := by
  cases hs1 : lookupWithFallback tr c1
      (key ++ "_" ++ tr.selFor tr.language (alist "count" values)) none with
  | error e =>
    simp [hs1] at h
  | ok t2 =>
    obtain ⟨r1, c2, w2⟩ := t2
    have hw2 : w2 = [] := lookup_warn_nil tr c1 _ none hdev hs1
    simp only [hs1] at h
    cases r1 with
    | some v => exact plural_fmt_warn_nil tr fmt _ _ _ (by simp [hw1, hw2]) hdev h
    | none =>
      cases hs2 : lookupWithFallback tr c2 (key ++ "_other") none with
      | error e =>
        simp [hs2] at h
      | ok t3 =>
        obtain ⟨r2, c3, w3⟩ := t3
        have hw3 : w3 = [] := lookup_warn_nil tr c2 _ none hdev hs2
        simp only [hs2] at h
        cases r2 with
        | some v =>
          exact plural_fmt_warn_nil tr fmt _ _ _ (by simp [hw1, hw2, hw3]) hdev h
        | none =>
          cases hs3 : lookupWithFallback tr c3 key none with
          | error e =>
            simp [hs3] at h
          | ok t4 =>
            obtain ⟨r3, c4, w4⟩ := t4
            have hw4 : w4 = [] := lookup_warn_nil tr c3 key none hdev hs3
            simp only [hs3] at h
            exact plural_fmt_warn_nil tr fmt _ _ _ (by simp [hw1, hw2, hw3, hw4]) hdev h

/-- With `devMode = false`, `plural` emits no warnings. -/
theorem pluralFn_warn_nil (tr : Tr) (cache : Cache) (key : String) (values : Values)
    (fmt : FmtOpt) (hdev : tr.devMode = false) {res : JV × Cache × List String}
    (h : pluralFn tr cache key values fmt = .ok res) : res.2.2 = [] := by
  unfold pluralFn at h
  cases hbase : lookupWithFallback tr cache key none with
  | error e =>
    simp only [hbase] at h
    simp at h
  | ok t1 =>
    obtain ⟨bv, c1, w1⟩ := t1
    have hw1 : w1 = [] := lookup_warn_nil tr cache key none hdev hbase
    simp only [hbase] at h
    cases bv with
    | none => exact plural_suffix_fmt_warn_nil tr c1 w1 key values fmt hdev hw1 h
    | some v =>
      cases v with
      | str s => exact plural_suffix_fmt_warn_nil tr c1 w1 key values fmt hdev hw1 h
      | num n => exact plural_suffix_fmt_warn_nil tr c1 w1 key values fmt hdev hw1 h
      | date d => exact plural_suffix_fmt_warn_nil tr c1 w1 key values fmt hdev hw1 h
      | obj fs =>
        cases hcat : alist (tr.selFor tr.language (alist "count" values)) fs with
        | some cv =>
          simp only [hcat] at h
          exact plural_fmt_warn_nil tr fmt _ _ _ hw1 hdev h
        | none =>
          simp only [hcat] at h
          cases hoth : alist "other" fs with
          | some ov =>
            simp only [hoth] at h
            exact plural_fmt_warn_nil tr fmt _ _ _ (by simp [hw1, hdev]) hdev h
          | none =>
            simp only [hoth] at h
            exact plural_fmt_warn_nil tr fmt _ _ _ (by simp [hw1, hdev]) hdev h

/-- C5 counterexample: the identity fallback does not hold for the empty
key (a key certainly absent from both trees): `t("")` takes the falsy-key
branch and returns the whole scoped translation object, not `""`. -/
theorem C5_counterexample :
    tFn trApples [] "" none none = .ok (some (.obj [("a", .str "apples")]), [], []) ∧
    (some (JV.obj [("a", .str "apples")]) : Option JV) ≠ some (.str "") := by
  refine ⟨rfl, ?_⟩
  simp

/-- C5 (amended): for every NONEMPTY key absent from both the current and
fallback language's scoped trees, `t(key)` returns the key itself
(`t("")` instead returns the whole scoped tree); soft misses never throw
and degrade to their defined fallbacks — `undefined` for `get` on a
missing key and the unformatted value for `format` with a missing
formatter; and with `devMode = false` no diagnostic is emitted by `t`,
`get`, `plural` or `format`. -/
theorem C5_soft_miss_degradation (tr : Tr) (cache : Cache) :
    (∀ key c1 w1, key ≠ "" →
      lookupWithFallback tr cache key none = .ok (none, c1, w1) →
      tFn tr cache key none none = .ok (some (.str key), c1, w1)) ∧
    (∀ k base bc c1 w1, k ≠ "" →
      buildTranslationObject tr cache tr.language = .ok (base, bc, w1) →
      lookupWithFallback tr bc k base = .ok (none, c1, []) →
      getFn tr cache (some k) = .ok (none, c1, w1 ++ [])) ∧
    (∀ value fname args, alist fname tr.formatters = none →
      applyFormat tr value fname args
        = (value, if tr.devMode then [msgFormatter fname] else [])) ∧
    (tr.devMode = false →
      (∀ key values fmt res, tFn tr cache key values fmt = .ok res → res.2.2 = []) ∧
      (∀ k res, getFn tr cache k = .ok res → res.2.2 = []) ∧
      (∀ key values fmt res, pluralFn tr cache key values fmt = .ok res → res.2.2 = []) ∧
      (∀ value fname args, (formatFn tr value fname args).2 = [])) := by
  refine ⟨?_, ?_, ?_, ?_⟩
  · intro key c1 w1 hne hlk
    unfold tFn
    rw [if_neg hne]
    have hcp : checkPlural tr cache key none = .ok (none, cache, []) := rfl
    rw [hcp]
    simp [hlk, interpolate]
  · intro k base bc c1 w1 hne hb hlk
    unfold getFn
    simp only [hb]
    have h' : (if k = "" then (Except.ok (base, bc, w1) : Res (Option JV))
        else match lookupWithFallback tr bc k base with
          | .error e => .error e
          | .ok (r, c2, w2) => .ok (r, c2, w1 ++ w2)) = .ok (none, c1, w1 ++ []) := by
      rw [if_neg hne, hlk]
    exact h'
  · intro value fname args hmiss
    unfold applyFormat
    rw [hmiss]
  · intro hdev
    exact ⟨fun key values fmt res h => tFn_warn_nil tr cache key values fmt hdev h,
      fun k res h => getFn_warn_nil tr cache k hdev h,
      fun key values fmt res h => pluralFn_warn_nil tr cache key values fmt hdev h,
      fun value fname args => applyFormat_warn_nil tr value fname args hdev⟩

/-- C5 witness: the amended statement applied at a concrete translator —
the identity fallback for the missing key `zz` and the degradation facts
for `get` and `format`. -/
theorem C5_soft_miss_degradation_witness :
    tFn trApples [] "zz" none none = .ok (some (.str "zz"), [], []) ∧
    applyFormat trApples (.str "v") "nosuch" none = (.str "v", []) ∧
    (formatFn trApples (.str "v") "nosuch" none).2 = [] := by
  refine ⟨(C5_soft_miss_degradation trApples []).1 "zz" [] [] (by decide) rfl, ?_, ?_⟩
  · have := (C5_soft_miss_degradation trApples []).2.2.1 (.str "v") "nosuch" none rfl
    simpa using this
  · exact ((C5_soft_miss_degradation trApples []).2.2.2 rfl).2.2.2 (.str "v") "nosuch" none

/-! ### Claim C9 -/

/-- Right cancellation of string concatenation. -/
theorem string_append_right_cancel {a b s : String} (h : a ++ s = b ++ s) : a = b := by
  have hd : a.data ++ s.data = b.data ++ s.data := by
    have := congrArg String.data h
    simpa [String.data_append] using this
  have : a.data = b.data := by
    exact List.append_cancel_right hd
  cases a
  cases b
  exact congrArg String.mk this

/-- The scoped-subtree cache key determines the language. -/
theorem keyOf_inj {tr : Tr} {lang1 lang2 : String} (h : keyOf tr lang1 = keyOf tr lang2) :
    lang1 = lang2 := by
  unfold keyOf at h
  exact string_append_right_cancel (string_append_right_cancel h)

/-- `pureScoped` with no scope. -/
theorem pureScoped_undef (tr : Tr) (lang : String) (hs : tr.scope = .undef) :
    pureScoped tr lang = .ok (alist lang tr.resources) := by
  unfold pureScoped
  simp only [hs]

/-- `pureScoped` with the falsy string scope. -/
theorem pureScoped_single_empty (tr : Tr) (lang : String) (hs : tr.scope = .single "") :
    pureScoped tr lang = .ok (alist lang tr.resources) := by
  unfold pureScoped
  simp [hs]

/-- `pureScoped` with a nonempty string scope. -/
theorem pureScoped_single (tr : Tr) (lang s : String) (hs : tr.scope = .single s)
    (hse : s ≠ "") :
    pureScoped tr lang = .ok (walkPath (alist lang tr.resources) (splitOnDot s)) := by
  unfold pureScoped
  simp only [hs, if_neg hse]

/-- `pureScoped` with an array scope. -/
theorem pureScoped_multi (tr : Tr) (lang : String) (mods : List String)
    (hs : tr.scope = .multi mods) :
    pureScoped tr lang = (match buildCombined (alist lang tr.resources) mods with
      | none => .error ()
      | some cn => .ok (some (cnToJV cn))) := by
  unfold pureScoped
  simp only [hs]

/-- Bridge for `buildTranslationObject`: from a coherent cache it returns
the recomputed scoped tree, and its resulting cache is coherent. -/
theorem build_bridge (tr : Tr) (c : Cache) (lang : String) (hc : CohIf tr c) :
    resVal (buildTranslationObject tr c lang) = pureScoped tr lang ∧
    (∀ v c' w, buildTranslationObject tr c lang = .ok (v, c', w) → CohIf tr c') := by
  cases hs : tr.scope with
  | undef =>
    have hb : buildTranslationObject tr c lang
        = .ok (alist lang tr.resources, c, []) := by
      unfold buildTranslationObject
      simp only [hs]
    rw [pureScoped_undef tr lang hs, hb]
    exact ⟨rfl, fun v c' w h => by cases h; exact hc⟩
  | single s =>
    by_cases hse : s = ""
    · subst hse
      have hb : buildTranslationObject tr c lang
          = .ok (alist lang tr.resources, c, []) := by
        unfold buildTranslationObject
        simp [hs]
      rw [pureScoped_single_empty tr lang hs, hb]
      exact ⟨rfl, fun v c' w h => by cases h; exact hc⟩
    · have hb : buildTranslationObject tr c lang
          = (match (if tr.useCache then lookupC c (lang ++ "::" ++ s) else none) with
            | some v => (Except.ok (v, c, []) : Res (Option JV))
            | none =>
              Except.ok (walkPath (alist lang tr.resources) (splitOnDot s),
                (if tr.useCache then ((lang ++ "::" ++ s),
                  walkPath (alist lang tr.resources) (splitOnDot s)) :: c else c),
                (if (walkPath (alist lang tr.resources) (splitOnDot s)).isNone && tr.devMode
                  then [msgNamespace s tr.language] else []))) := by
        unfold buildTranslationObject
        simp only [hs, if_neg hse]
      rw [pureScoped_single tr lang s hs hse]
      cases hcl : (if tr.useCache then lookupC c (lang ++ "::" ++ s) else none) with
      | some v0 =>
        simp only [hcl] at hb
        have huc : tr.useCache = true := by
          cases hu : tr.useCache
          · rw [hu] at hcl
            simp at hcl
          · rfl
        rw [huc] at hcl
        simp only [if_true] at hcl
        have hpure : pureScoped tr lang = .ok v0 := by
          apply hc huc lang v0
          show lookupC c (lang ++ "::" ++ scopeKeyOf tr.scope) = some v0
          rw [hs]
          exact hcl
        rw [pureScoped_single tr lang s hs hse] at hpure
        injection hpure with hpure'
        rw [hb]
        refine ⟨?_, fun v c' w h => by cases h; exact hc⟩
        show Except.ok v0 = Except.ok (walkPath (alist lang tr.resources) (splitOnDot s))
        rw [hpure']
      | none =>
        simp only [hcl] at hb
        rw [hb]
        refine ⟨rfl, ?_⟩
        intro v c' w h
        cases h
        intro huc
        rw [huc]
        simp only [if_true]
        intro lang' v' hlook'
        by_cases hkey : (lang ++ "::" ++ s) = keyOf tr lang'
        · have hlang : lang = lang' := by
            apply @keyOf_inj tr
            rw [← hkey]
            show lang ++ "::" ++ scopeKeyOf tr.scope = _
            rw [hs]
            rfl
          unfold lookupC at hlook'
          rw [if_pos hkey] at hlook'
          injection hlook' with hv'
          subst hlang
          rw [pureScoped_single tr lang s hs hse, ← hv']
        · unfold lookupC at hlook'
          rw [if_neg hkey] at hlook'
          exact hc huc lang' v' hlook'
  | multi mods =>
    have hb : buildTranslationObject tr c lang
        = (match (if tr.useCache then
              lookupC c (lang ++ "::" ++ scopeKeyOf (.multi mods)) else none) with
          | some v => (Except.ok (v, c, []) : Res (Option JV))
          | none =>
            match buildCombined (alist lang tr.resources) mods with
            | none => .error ()
            | some cn =>
              Except.ok (some (cnToJV cn),
                (if tr.useCache then ((lang ++ "::" ++ scopeKeyOf (.multi mods)),
                  some (cnToJV cn)) :: c else c), [])) := by
      unfold buildTranslationObject
      simp only [hs]
    rw [pureScoped_multi tr lang mods hs]
    cases hcl : (if tr.useCache then
        lookupC c (lang ++ "::" ++ scopeKeyOf (.multi mods)) else none) with
    | some v0 =>
      simp only [hcl] at hb
      have huc : tr.useCache = true := by
        cases hu : tr.useCache
        · rw [hu] at hcl
          simp at hcl
        · rfl
      rw [huc] at hcl
      simp only [if_true] at hcl
      have hpure : pureScoped tr lang = .ok v0 := by
        apply hc huc lang v0
        show lookupC c (lang ++ "::" ++ scopeKeyOf tr.scope) = some v0
        rw [hs]
        exact hcl
      rw [pureScoped_multi tr lang mods hs] at hpure
      rw [hb]
      refine ⟨?_, fun v c' w h => by cases h; exact hc⟩
      exact hpure.symm
    | none =>
      simp only [hcl] at hb
      cases hbc : buildCombined (alist lang tr.resources) mods with
      | none =>
        simp only [hbc] at hb
        rw [hb]
        refine ⟨rfl, ?_⟩
        intro v c' w h
        simp at h
      | some cn =>
        simp only [hbc] at hb
        rw [hb]
        refine ⟨rfl, ?_⟩
        intro v c' w h
        cases h
        intro huc
        rw [huc]
        simp only [if_true]
        intro lang' v' hlook'
        by_cases hkey : (lang ++ "::" ++ scopeKeyOf (.multi mods)) = keyOf tr lang'
        · have hlang : lang = lang' := by
            apply @keyOf_inj tr
            rw [← hkey]
            show lang ++ "::" ++ scopeKeyOf tr.scope = _
            rw [hs]
          unfold lookupC at hlook'
          rw [if_pos hkey] at hlook'
          injection hlook' with hv'
          subst hlang
          rw [pureScoped_multi tr lang mods hs, hbc, ← hv']
        · unfold lookupC at hlook'
          rw [if_neg hkey] at hlook'
          exact hc huc lang' v' hlook'

/-- Bridge for `lookupWithFallback`. -/
theorem lookup_bridge (tr : Tr) (c : Cache) (key : String) (base : Option JV)
    (hc : CohIf tr c) :
    resVal (lookupWithFallback tr c key base) = pureLookup tr key base ∧
    (∀ v c' w, lookupWithFallback tr c key base = .ok (v, c', w) → CohIf tr c') := by
  have main : ∀ (b : Option JV) (c1 : Cache) (w1 : List String), CohIf tr c1 →
      (∀ res, (match findTranslation (splitOnDot key) b with
        | some v =>
          Except.ok (some v, c1,
            w1 ++ (if (findTranslation (splitOnDot key) b).isNone && tr.devMode then
              [msgKey key tr.language] else []))
        | none =>
          match buildTranslationObject tr c1 tr.fallbackLanguage with
          | .error e => .error e
          | .ok (fb, c2, w3) =>
            Except.ok (findTranslation (splitOnDot key) fb, c2,
              w1 ++ (if (findTranslation (splitOnDot key) b).isNone && tr.devMode then
                [msgKey key tr.language] else []) ++ w3 ++
                (if (findTranslation (splitOnDot key) fb).isNone && tr.devMode then
                  [msgKey key tr.fallbackLanguage] else []))) = res →
        resVal res = (match findTranslation (splitOnDot key) b with
          | some v => .ok (some v)
          | none =>
            match pureScoped tr tr.fallbackLanguage with
            | .error e => .error e
            | .ok fb => .ok (findTranslation (splitOnDot key) fb)) ∧
        (∀ v c' w, res = .ok (v, c', w) → CohIf tr c')) := by
    intro b c1 w1 hc1 res hres
    cases hft : findTranslation (splitOnDot key) b with
    | some v =>
      simp only [hft] at hres
      subst hres
      exact ⟨rfl, fun v' c' w h => by cases h; exact hc1⟩
    | none =>
      simp only [hft] at hres
      obtain ⟨hbv, hbcoh⟩ := build_bridge tr c1 tr.fallbackLanguage hc1
      cases hb2 : buildTranslationObject tr c1 tr.fallbackLanguage with
      | error e =>
        rw [hb2] at hbv hres
        have hpure : pureScoped tr tr.fallbackLanguage = Except.error e := hbv.symm
        subst hres
        rw [hpure]
        exact ⟨rfl, fun v c' w h => by simp at h⟩
      | ok t2 =>
        obtain ⟨fb, c2, w3⟩ := t2
        rw [hb2] at hbv hres
        have hpure : pureScoped tr tr.fallbackLanguage = Except.ok fb := hbv.symm
        subst hres
        rw [hpure]
        exact ⟨rfl, fun v c' w h => by cases h; exact hbcoh fb c2 w3 hb2⟩
  cases base with
  | some b =>
    have hb : lookupWithFallback tr c key (some b)
        = (match findTranslation (splitOnDot key) (some b) with
          | some v =>
            Except.ok (some v, c,
              [] ++ (if (findTranslation (splitOnDot key) (some b)).isNone && tr.devMode then
                [msgKey key tr.language] else []))
          | none =>
            match buildTranslationObject tr c tr.fallbackLanguage with
            | .error e => .error e
            | .ok (fb, c2, w3) =>
              Except.ok (findTranslation (splitOnDot key) fb, c2,
                [] ++ (if (findTranslation (splitOnDot key) (some b)).isNone &&
                    tr.devMode then [msgKey key tr.language] else []) ++ w3 ++
                  (if (findTranslation (splitOnDot key) fb).isNone && tr.devMode then
                    [msgKey key tr.fallbackLanguage] else []))) := by
      unfold lookupWithFallback
      rfl
    have hpl : pureLookup tr key (some b)
        = (match findTranslation (splitOnDot key) (some b) with
          | some v => .ok (some v)
          | none =>
            match pureScoped tr tr.fallbackLanguage with
            | .error e => .error e
            | .ok fb => .ok (findTranslation (splitOnDot key) fb)) := by
      unfold pureLookup
      rfl
    obtain ⟨hv, hcoh⟩ := main (some b) c [] hc _ hb.symm
    rw [hpl]
    exact ⟨hv, fun v c' w h => hcoh v c' w h⟩
  | none =>
    obtain ⟨hb1v, hb1coh⟩ := build_bridge tr c tr.language hc
    cases hb1 : buildTranslationObject tr c tr.language with
    | error e =>
      rw [hb1] at hb1v
      have hpure1 : pureScoped tr tr.language = Except.error e := hb1v.symm
      have hb : lookupWithFallback tr c key none = .error e := by
        unfold lookupWithFallback
        rw [hb1]
      have hpl : pureLookup tr key none = .error e := by
        unfold pureLookup
        rw [hpure1]
      rw [hb, hpl]
      exact ⟨rfl, fun v c' w h => by simp at h⟩
    | ok t1 =>
      obtain ⟨b, c1, w1⟩ := t1
      rw [hb1] at hb1v
      have hpure1 : pureScoped tr tr.language = Except.ok b := hb1v.symm
      have hc1 : CohIf tr c1 := hb1coh b c1 w1 hb1
      have hb : lookupWithFallback tr c key none
          = (match findTranslation (splitOnDot key) b with
            | some v =>
              Except.ok (some v, c1,
                w1 ++ (if (findTranslation (splitOnDot key) b).isNone && tr.devMode then
                  [msgKey key tr.language] else []))
            | none =>
              match buildTranslationObject tr c1 tr.fallbackLanguage with
              | .error e => .error e
              | .ok (fb, c2, w3) =>
                Except.ok (findTranslation (splitOnDot key) fb, c2,
                  w1 ++ (if (findTranslation (splitOnDot key) b).isNone && tr.devMode then
                    [msgKey key tr.language] else []) ++ w3 ++
                    (if (findTranslation (splitOnDot key) fb).isNone && tr.devMode then
                      [msgKey key tr.fallbackLanguage] else []))) := by
        unfold lookupWithFallback
        rw [hb1]
      have hpl : pureLookup tr key none
          = (match findTranslation (splitOnDot key) b with
            | some v => .ok (some v)
            | none =>
              match pureScoped tr tr.fallbackLanguage with
              | .error e => .error e
              | .ok fb => .ok (findTranslation (splitOnDot key) fb)) := by
        unfold pureLookup
        rw [hpure1]
      obtain ⟨hv, hcoh⟩ := main b c1 w1 hc1 _ hb.symm
      rw [hpl]
      exact ⟨hv, fun v c' w h => hcoh v c' w h⟩

/-- Bridge for `checkPlural`. -/
theorem checkPlural_bridge (tr : Tr) (c : Cache) (key : String) (values : Option Values)
    (hc : CohIf tr c) :
    resVal (checkPlural tr c key values) = pureCheckPlural tr key values ∧
    (∀ v c' w, checkPlural tr c key values = .ok (v, c', w) → CohIf tr c') := by
  unfold checkPlural pureCheckPlural
  cases values with
  | none => exact ⟨rfl, fun v c' w h => by cases h; exact hc⟩
  | some vs =>
    cases hcnt : alist "count" vs with
    | none =>
      simp only [hcnt]
      exact ⟨rfl, fun v c' w h => by cases h; exact hc⟩
    | some cnt =>
      simp only [hcnt]
      by_cases hsf : hasPluralSuffix key
      · simp only [if_pos hsf]
        exact ⟨rfl, fun v c' w h => by cases h; exact hc⟩
      · simp only [if_neg hsf]
        obtain ⟨hlv, hlcoh⟩ := lookup_bridge tr c
          (key ++ "_" ++ tr.selFor tr.language (some cnt)) none hc
        cases hlk : lookupWithFallback tr c
            (key ++ "_" ++ tr.selFor tr.language (some cnt)) none with
        | error e =>
          rw [hlk] at hlv
          have hpure : pureLookup tr (key ++ "_" ++ tr.selFor tr.language (some cnt)) none
              = Except.error e := hlv.symm
          simp only [hlk, hpure]
          exact ⟨rfl, fun v c' w h => by simp at h⟩
        | ok t1 =>
          obtain ⟨r, c1, w1⟩ := t1
          rw [hlk] at hlv
          have hpure : pureLookup tr (key ++ "_" ++ tr.selFor tr.language (some cnt)) none
              = Except.ok r := hlv.symm
          simp only [hlk, hpure]
          exact ⟨rfl, fun v c' w h => by cases h; exact hlcoh r c1 w1 hlk⟩

/-- Bridge for `get`. -/
theorem getFn_bridge (tr : Tr) (c : Cache) (key : Option String) (hc : CohIf tr c) :
    resVal (getFn tr c key) = pureGet tr key ∧
    (∀ v c' w, getFn tr c key = .ok (v, c', w) → CohIf tr c') := by
  unfold getFn pureGet
  obtain ⟨hb1v, hb1coh⟩ := build_bridge tr c tr.language hc
  cases hb1 : buildTranslationObject tr c tr.language with
  | error e =>
    rw [hb1] at hb1v
    have hpure1 : pureScoped tr tr.language = Except.error e := hb1v.symm
    simp only [hb1, hpure1]
    exact ⟨rfl, fun v c' w h => by simp at h⟩
  | ok t1 =>
    obtain ⟨base, c1, w1⟩ := t1
    rw [hb1] at hb1v
    have hpure1 : pureScoped tr tr.language = Except.ok base := hb1v.symm
    have hc1 : CohIf tr c1 := hb1coh base c1 w1 hb1
    simp only [hb1, hpure1]
    cases key with
    | none => exact ⟨rfl, fun v c' w h => by cases h; exact hc1⟩
    | some k =>
      by_cases hk : k = ""
      · simp only [if_pos hk]
        exact ⟨rfl, fun v c' w h => by cases h; exact hc1⟩
      · simp only [if_neg hk]
        obtain ⟨hlv, hlcoh⟩ := lookup_bridge tr c1 k base hc1
        cases hlk : lookupWithFallback tr c1 k base with
        | error e =>
          rw [hlk] at hlv
          have hpure : pureLookup tr k base = Except.error e := hlv.symm
          simp only [hlk, hpure]
          exact ⟨rfl, fun v c' w h => by simp at h⟩
        | ok t2 =>
          obtain ⟨r, c2, w2⟩ := t2
          rw [hlk] at hlv
          have hpure : pureLookup tr k base = Except.ok r := hlv.symm
          simp only [hlk, hpure]
          exact ⟨rfl, fun v c' w h => by cases h; exact hlcoh r c2 w2 hlk⟩

/-- Bridge for `t`. -/
theorem tFn_bridge (tr : Tr) (c : Cache) (key : String) (values : Option Values)
    (fmt : FmtOpt) (hc : CohIf tr c) :
    resVal (tFn tr c key values fmt) = pureT tr key values fmt ∧
    (∀ v c' w, tFn tr c key values fmt = .ok (v, c', w) → CohIf tr c') := by
  unfold tFn pureT
  by_cases hk : key = ""
  · simp only [if_pos hk]
    exact getFn_bridge tr c none hc
  · simp only [if_neg hk]
    obtain ⟨hcv, hccoh⟩ := checkPlural_bridge tr c key values hc
    cases hcp : checkPlural tr c key values with
    | error e =>
      rw [hcp] at hcv
      have hpure : pureCheckPlural tr key values = Except.error e := hcv.symm
      simp only [hcp, hpure]
      exact ⟨rfl, fun v c' w h => by simp at h⟩
    | ok t1 =>
      obtain ⟨p, c1, w1⟩ := t1
      rw [hcp] at hcv
      have hpure : pureCheckPlural tr key values = Except.ok p := hcv.symm
      have hc1 : CohIf tr c1 := hccoh p c1 w1 hcp
      simp only [hcp, hpure]
      cases p with
      | some pv => exact ⟨rfl, fun v c' w h => by cases h; exact hc1⟩
      | none =>
        obtain ⟨hlv, hlcoh⟩ := lookup_bridge tr c1 key none hc1
        cases hlk : lookupWithFallback tr c1 key none with
        | error e =>
          rw [hlk] at hlv
          have hpure2 : pureLookup tr key none = Except.error e := hlv.symm
          simp only [hlk, hpure2]
          exact ⟨rfl, fun v c' w h => by simp at h⟩
        | ok t2 =>
          obtain ⟨r, c2, w2⟩ := t2
          rw [hlk] at hlv
          have hpure2 : pureLookup tr key none = Except.ok r := hlv.symm
          have hc2 : CohIf tr c2 := hlcoh r c2 w2 hlk
          simp only [hlk, hpure2]
          cases fmt with
          | none => exact ⟨rfl, fun v c' w h => by cases h; exact hc2⟩
          | some fa =>
            obtain ⟨fn, args⟩ := fa
            by_cases hfn : fn = ""
            · refine ⟨by simp [hfn, resVal], fun v c' w h => ?_⟩
              simp only [hfn, ne_eq, not_true_eq_false, if_false, ite_false] at h
              cases h; exact hc2
            · refine ⟨by simp [hfn, resVal], fun v c' w h => ?_⟩
              simp only [ne_eq, hfn, not_false_eq_true, ite_true] at h
              cases h; exact hc2

/-- Bridging the optional-formatter epilogue of `plural` once the chain
has produced a value `v`, cache `c0` and warnings `w0`. -/
theorem fmt_leaf_bridge (tr : Tr) (fmt : FmtOpt) (v : JV) (c0 : Cache) (w0 : List String)
    (hc0 : CohIf tr c0) :
    resVal ((match fmt with
      | some (fn, args) =>
        if fn ≠ "" then
          let fr := applyFormat tr v fn args
          .ok (fr.1, c0, w0 ++ fr.2)
        else .ok (v, c0, w0)
      | none => .ok (v, c0, w0)) : Res JV) =
    ((match fmt with
      | some (fn, args) =>
        if fn ≠ "" then .ok (applyFormat tr v fn args).1 else .ok v
      | none => .ok v) : Except Unit JV) ∧
    (∀ u c' w, ((match fmt with
      | some (fn, args) =>
        if fn ≠ "" then
          let fr := applyFormat tr v fn args
          .ok (fr.1, c0, w0 ++ fr.2)
        else .ok (v, c0, w0)
      | none => .ok (v, c0, w0)) : Res JV) = Except.ok (u, c', w) → CohIf tr c') := by
  cases fmt with
  | none => exact ⟨rfl, fun u c' w h => by cases h; exact hc0⟩
  | some fa =>
    obtain ⟨fn, args⟩ := fa
    by_cases hfn : fn = ""
    · refine ⟨by simp [hfn, resVal], fun u c' w h => ?_⟩
      simp only [hfn, ne_eq, not_true_eq_false, if_false, ite_false] at h
      cases h; exact hc0
    · refine ⟨by simp [hfn, resVal], fun u c' w h => ?_⟩
      simp only [ne_eq, hfn, not_false_eq_true, ite_true] at h
      cases h; exact hc0

/-- Bridging the pluralisation suffix chain
`key_category ?? key_other ?? key` of `plural` against its cache-free
counterpart, given that recomputing the base lookup yields `bv`. -/
theorem plural_chain_bridge (tr : Tr) (c1 : Cache) (key cat : String) (values : Values)
    (w1 : List String) (bv : Option JV) (hc1 : CohIf tr c1)
    (hbase : pureLookup tr key none = Except.ok bv) :
    resVal ((match lookupWithFallback tr c1 (key ++ "_" ++ cat) none with
      | .error e => .error e
      | .ok (r1, c2, w2) =>
        match r1 with
        | some v =>
          .ok ((interpolate tr (some v) (some values)).getD (.str key), c2, w1 ++ w2)
        | none =>
          match lookupWithFallback tr c2 (key ++ "_other") none with
          | .error e => .error e
          | .ok (r2, c3, w3) =>
            match r2 with
            | some v =>
              .ok ((interpolate tr (some v) (some values)).getD (.str key), c3,
                w1 ++ w2 ++ w3)
            | none =>
              match lookupWithFallback tr c3 key none with
              | .error e => .error e
              | .ok (r3, c4, w4) =>
                .ok ((interpolate tr r3 (some values)).getD (.str key), c4,
                  w1 ++ w2 ++ w3 ++ w4)) : Res JV) =
    ((match pureLookup tr (key ++ "_" ++ cat) none with
      | .error e => .error e
      | .ok (some v) => .ok ((interpolate tr (some v) (some values)).getD (.str key))
      | .ok none =>
        match pureLookup tr (key ++ "_other") none with
        | .error e => .error e
        | .ok (some v) => .ok ((interpolate tr (some v) (some values)).getD (.str key))
        | .ok none =>
          .ok ((interpolate tr bv (some values)).getD (.str key))) : Except Unit JV) ∧
    (∀ u c' w, ((match lookupWithFallback tr c1 (key ++ "_" ++ cat) none with
      | .error e => .error e
      | .ok (r1, c2, w2) =>
        match r1 with
        | some v =>
          .ok ((interpolate tr (some v) (some values)).getD (.str key), c2, w1 ++ w2)
        | none =>
          match lookupWithFallback tr c2 (key ++ "_other") none with
          | .error e => .error e
          | .ok (r2, c3, w3) =>
            match r2 with
            | some v =>
              .ok ((interpolate tr (some v) (some values)).getD (.str key), c3,
                w1 ++ w2 ++ w3)
            | none =>
              match lookupWithFallback tr c3 key none with
              | .error e => .error e
              | .ok (r3, c4, w4) =>
                .ok ((interpolate tr r3 (some values)).getD (.str key), c4,
                  w1 ++ w2 ++ w3 ++ w4)) : Res JV) = Except.ok (u, c', w) →
      CohIf tr c') := by
  obtain ⟨h1v, h1coh⟩ := lookup_bridge tr c1 (key ++ "_" ++ cat) none hc1
  cases h1 : lookupWithFallback tr c1 (key ++ "_" ++ cat) none with
  | error e =>
    rw [h1] at h1v
    have hp1 : pureLookup tr (key ++ "_" ++ cat) none = Except.error e := h1v.symm
    simp only [h1, hp1]
    exact ⟨rfl, fun u c' w h => by simp at h⟩
  | ok t1 =>
    obtain ⟨r1, c2, w2⟩ := t1
    rw [h1] at h1v
    have hp1 : pureLookup tr (key ++ "_" ++ cat) none = Except.ok r1 := h1v.symm
    have hc2 : CohIf tr c2 := h1coh r1 c2 w2 h1
    simp only [h1, hp1]
    cases r1 with
    | some v => exact ⟨rfl, fun u c' w h => by cases h; exact hc2⟩
    | none =>
      obtain ⟨h2v, h2coh⟩ := lookup_bridge tr c2 (key ++ "_other") none hc2
      cases h2 : lookupWithFallback tr c2 (key ++ "_other") none with
      | error e =>
        rw [h2] at h2v
        have hp2 : pureLookup tr (key ++ "_other") none = Except.error e := h2v.symm
        simp only [h2, hp2]
        exact ⟨rfl, fun u c' w h => by simp at h⟩
      | ok t2 =>
        obtain ⟨r2, c3, w3⟩ := t2
        rw [h2] at h2v
        have hp2 : pureLookup tr (key ++ "_other") none = Except.ok r2 := h2v.symm
        have hc3 : CohIf tr c3 := h2coh r2 c3 w3 h2
        simp only [h2, hp2]
        cases r2 with
        | some v => exact ⟨rfl, fun u c' w h => by cases h; exact hc3⟩
        | none =>
          obtain ⟨h3v, h3coh⟩ := lookup_bridge tr c3 key none hc3
          have h3v' : resVal (lookupWithFallback tr c3 key none) = Except.ok bv :=
            h3v.trans hbase
          cases h3 : lookupWithFallback tr c3 key none with
          | error e =>
            rw [h3] at h3v'
            simp [resVal] at h3v'
          | ok t3 =>
            obtain ⟨r3, c4, w4⟩ := t3
            rw [h3] at h3v'
            have hr3 : r3 = bv := by
              have : (Except.ok r3 : Except Unit (Option JV)) = Except.ok bv := h3v'
              exact Except.ok.inj this
            subst hr3
            have hc4 : CohIf tr c4 := h3coh r3 c4 w4 h3
            simp only [h3]
            exact ⟨rfl, fun u c' w h => by cases h; exact hc4⟩

/-- Bridge for `plural`. -/
theorem pluralFn_bridge (tr : Tr) (c : Cache) (key : String) (values : Values)
    (fmt : FmtOpt) (hc : CohIf tr c) :
    resVal (pluralFn tr c key values fmt) = purePlural tr key values fmt ∧
    (∀ u c' w, pluralFn tr c key values fmt = .ok (u, c', w) → CohIf tr c') := by
  unfold pluralFn purePlural
  obtain ⟨hbv, hbcoh⟩ := lookup_bridge tr c key none hc
  cases hb : lookupWithFallback tr c key none with
  | error e =>
    rw [hb] at hbv
    have hpure : pureLookup tr key none = Except.error e := hbv.symm
    simp only [hb, hpure]
    exact ⟨rfl, fun u c' w h => by simp at h⟩
  | ok t1 =>
    obtain ⟨baseValue, c1, w1⟩ := t1
    rw [hb] at hbv
    have hpure : pureLookup tr key none = Except.ok baseValue := hbv.symm
    have hc1 : CohIf tr c1 := hbcoh baseValue c1 w1 hb
    cases baseValue with
    | none =>
      simp only [hb, hpure]
      obtain ⟨hchv, hchcoh⟩ := plural_chain_bridge tr c1 key
        (tr.selFor tr.language (alist "count" values)) values w1 none hc1 hpure
      constructor
      · split
        · rename_i e heq
          rw [heq] at hchv
          rw [← hchv]
          try rfl
        · rename_i v0 c0 w0 heq
          rw [heq] at hchv
          rw [← hchv]
          exact (fmt_leaf_bridge tr fmt v0 c0 w0 (hchcoh v0 c0 w0 heq)).1
      · intro u c' w' h
        split at h
        · rename_i e heq
          simp at h
        · rename_i v0 c0 w0 heq
          exact (fmt_leaf_bridge tr fmt v0 c0 w0 (hchcoh v0 c0 w0 heq)).2 u c' w' h
    | some bvv =>
      cases bvv with
      | str sv =>
        simp only [hb, hpure]
        obtain ⟨hchv, hchcoh⟩ := plural_chain_bridge tr c1 key
          (tr.selFor tr.language (alist "count" values)) values w1 (some (.str sv)) hc1 hpure
        constructor
        · split
          · rename_i e heq
            rw [heq] at hchv
            rw [← hchv]
            try rfl
          · rename_i v0 c0 w0 heq
            rw [heq] at hchv
            rw [← hchv]
            exact (fmt_leaf_bridge tr fmt v0 c0 w0 (hchcoh v0 c0 w0 heq)).1
        · intro u c' w' h
          split at h
          · rename_i e heq
            simp at h
          · rename_i v0 c0 w0 heq
            exact (fmt_leaf_bridge tr fmt v0 c0 w0 (hchcoh v0 c0 w0 heq)).2 u c' w' h
      | num nv =>
        simp only [hb, hpure]
        obtain ⟨hchv, hchcoh⟩ := plural_chain_bridge tr c1 key
          (tr.selFor tr.language (alist "count" values)) values w1 (some (.num nv)) hc1 hpure
        constructor
        · split
          · rename_i e heq
            rw [heq] at hchv
            rw [← hchv]
            try rfl
          · rename_i v0 c0 w0 heq
            rw [heq] at hchv
            rw [← hchv]
            exact (fmt_leaf_bridge tr fmt v0 c0 w0 (hchcoh v0 c0 w0 heq)).1
        · intro u c' w' h
          split at h
          · rename_i e heq
            simp at h
          · rename_i v0 c0 w0 heq
            exact (fmt_leaf_bridge tr fmt v0 c0 w0 (hchcoh v0 c0 w0 heq)).2 u c' w' h
      | date dv =>
        simp only [hb, hpure]
        obtain ⟨hchv, hchcoh⟩ := plural_chain_bridge tr c1 key
          (tr.selFor tr.language (alist "count" values)) values w1 (some (.date dv)) hc1 hpure
        constructor
        · split
          · rename_i e heq
            rw [heq] at hchv
            rw [← hchv]
            try rfl
          · rename_i v0 c0 w0 heq
            rw [heq] at hchv
            rw [← hchv]
            exact (fmt_leaf_bridge tr fmt v0 c0 w0 (hchcoh v0 c0 w0 heq)).1
        · intro u c' w' h
          split at h
          · rename_i e heq
            simp at h
          · rename_i v0 c0 w0 heq
            exact (fmt_leaf_bridge tr fmt v0 c0 w0 (hchcoh v0 c0 w0 heq)).2 u c' w' h
      | obj fs =>
        simp only [hb, hpure]
        cases hcv : alist (tr.selFor tr.language (alist "count" values)) fs with
        | some cv =>
          simp only [hcv]
          exact fmt_leaf_bridge tr fmt
            ((interpolate tr (some cv) (some values)).getD (.str key)) c1 w1 hc1
        | none =>
          simp only [hcv]
          cases hov : alist "other" fs with
          | some ov =>
            simp only [hov]
            exact fmt_leaf_bridge tr fmt
              ((interpolate tr (some ov) (some values)).getD (.str key)) c1
              (w1 ++ (if tr.devMode then [msgPlural key tr.language] else [])) hc1
          | none =>
            simp only [hov]
            exact fmt_leaf_bridge tr fmt (.str key) c1
              (w1 ++ (if tr.devMode then [msgPlural key tr.language] else [])) hc1

/-- Changing the language affects neither the cache keys nor the scoped
recomputation, so it preserves coherence. -/
theorem cohIf_changeLanguage (tr : Tr) (c : Cache) (l : String) (hc : CohIf tr c) :
    CohIf (changeLanguageFn tr l) c := by
  unfold changeLanguageFn
  by_cases hm : (tr.resources.map Prod.fst).contains l = true
  · rw [if_pos hm]
    intro hu lang v hl
    exact hc hu lang v hl
  · rw [if_neg hm]
    exact hc

/-- One facade step agrees with the cache-free step and keeps the cache
coherent. -/
theorem stepOp_bridge (tr : Tr) (c : Cache) (op : Op) (hc : CohIf tr c) :
    (stepOp tr c op).map (fun p => (p.1, p.2.2)) = pureStep tr op ∧
    (∀ tr' c' out, stepOp tr c op = .ok (tr', c', out) → CohIf tr' c') := by
  cases op with
  | opT k vls f =>
    obtain ⟨htv, htcoh⟩ := tFn_bridge tr c k vls f hc
    cases ht : tFn tr c k vls f with
    | error e =>
      rw [ht] at htv
      have hp : pureT tr k vls f = Except.error e := htv.symm
      simp only [stepOp, pureStep, ht, hp, Except.map]
      exact ⟨trivial, fun tr' c' out h => by simp at h⟩
    | ok t =>
      obtain ⟨r, c2, w⟩ := t
      rw [ht] at htv
      have hp : pureT tr k vls f = Except.ok r := htv.symm
      simp only [stepOp, pureStep, ht, hp, Except.map]
      exact ⟨trivial, fun tr' c' out h => by cases h; exact htcoh r c2 w ht⟩
  | opTT k vls f =>
    obtain ⟨htv, htcoh⟩ := tFn_bridge tr c k vls f hc
    cases ht : tFn tr c k vls f with
    | error e =>
      rw [ht] at htv
      have hp : pureT tr k vls f = Except.error e := htv.symm
      simp only [stepOp, pureStep, ttFn, ht, hp, Except.map]
      exact ⟨trivial, fun tr' c' out h => by simp [ttFn, ht] at h⟩
    | ok t =>
      obtain ⟨r, c2, w⟩ := t
      rw [ht] at htv
      have hp : pureT tr k vls f = Except.ok r := htv.symm
      simp only [stepOp, pureStep, ttFn, ht, hp, Except.map]
      exact ⟨trivial, fun tr' c' out h => by cases h; exact htcoh r c2 w ht⟩
  | opGet k =>
    obtain ⟨hgv, hgcoh⟩ := getFn_bridge tr c k hc
    cases hg : getFn tr c k with
    | error e =>
      rw [hg] at hgv
      have hp : pureGet tr k = Except.error e := hgv.symm
      simp only [stepOp, pureStep, hg, hp, Except.map]
      exact ⟨trivial, fun tr' c' out h => by simp at h⟩
    | ok t =>
      obtain ⟨r, c2, w⟩ := t
      rw [hg] at hgv
      have hp : pureGet tr k = Except.ok r := hgv.symm
      simp only [stepOp, pureStep, hg, hp, Except.map]
      exact ⟨trivial, fun tr' c' out h => by cases h; exact hgcoh r c2 w hg⟩
  | opGetObj k =>
    obtain ⟨hgv, hgcoh⟩ := getFn_bridge tr c (some k) hc
    cases hg : getFn tr c (some k) with
    | error e =>
      rw [hg] at hgv
      have hp : pureGet tr (some k) = Except.error e := hgv.symm
      simp only [stepOp, pureStep, getObjFn, hg, hp, Except.map]
      exact ⟨trivial, fun tr' c' out h => by simp [getObjFn, hg] at h⟩
    | ok t =>
      obtain ⟨r, c2, w⟩ := t
      rw [hg] at hgv
      have hp : pureGet tr (some k) = Except.ok r := hgv.symm
      simp only [stepOp, pureStep, getObjFn, hg, hp, Except.map]
      exact ⟨trivial, fun tr' c' out h => by cases h; exact hgcoh r c2 w hg⟩
  | opPlural k vls f =>
    obtain ⟨hpv, hpcoh⟩ := pluralFn_bridge tr c k vls f hc
    cases hp : pluralFn tr c k vls f with
    | error e =>
      rw [hp] at hpv
      have hq : purePlural tr k vls f = Except.error e := hpv.symm
      simp only [stepOp, pureStep, hp, hq, Except.map]
      exact ⟨trivial, fun tr' c' out h => by simp at h⟩
    | ok t =>
      obtain ⟨r, c2, w⟩ := t
      rw [hp] at hpv
      have hq : purePlural tr k vls f = Except.ok r := hpv.symm
      simp only [stepOp, pureStep, hp, hq, Except.map]
      exact ⟨trivial, fun tr' c' out h => by cases h; exact hpcoh r c2 w hp⟩
  | opFormat v n a =>
    simp only [stepOp, pureStep, Except.map]
    exact ⟨trivial, fun tr' c' out h => by cases h; exact hc⟩
  | opChangeLanguage l =>
    simp only [stepOp, pureStep, Except.map]
    exact ⟨trivial, fun tr' c' out h => by cases h; exact cohIf_changeLanguage tr c l hc⟩

/-- Over a coherent cache, a run of the facade returns exactly the values
of the cache-free reference run. -/
theorem runOutputs_bridge (tr : Tr) (c : Cache) (ops : List Op) (hc : CohIf tr c) :
    runOutputs tr c ops = pureRun tr ops := by
  induction ops generalizing tr c with
  | nil => rfl
  | cons op ops ih =>
    obtain ⟨hsv, hscoh⟩ := stepOp_bridge tr c op hc
    cases hs : stepOp tr c op with
    | error e =>
      rw [hs] at hsv
      have hp : pureStep tr op = Except.error e := hsv.symm
      simp only [runOutputs, pureRun, hs, hp]
    | ok t =>
      obtain ⟨tr1, c1, out⟩ := t
      rw [hs] at hsv
      have hp : pureStep tr op = Except.ok (tr1, out) := hsv.symm
      have hc1 : CohIf tr1 c1 := hscoh tr1 c1 out hs
      simp only [runOutputs, pureRun, hs, hp]
      rw [ih tr1 c1 hc1]

/-- The `useCache` flag is inert in the cache-free step: only the
resulting translator records it. -/
theorem pureStep_flag (tr : Tr) (b : Bool) (op : Op) :
    pureStep { tr with useCache := b } op
      = (pureStep tr op).map (fun p => ({ p.1 with useCache := b }, p.2)) := by
  cases op with
  | opT k vls f =>
    simp only [pureStep]
    have he : pureT { tr with useCache := b } k vls f = pureT tr k vls f := rfl
    rw [he]
    cases pureT tr k vls f with
    | error e => rfl
    | ok r => rfl
  | opTT k vls f =>
    simp only [pureStep]
    have he : pureT { tr with useCache := b } k vls f = pureT tr k vls f := rfl
    rw [he]
    cases pureT tr k vls f with
    | error e => rfl
    | ok r => rfl
  | opGet k =>
    simp only [pureStep]
    have he : pureGet { tr with useCache := b } k = pureGet tr k := rfl
    rw [he]
    cases pureGet tr k with
    | error e => rfl
    | ok r => rfl
  | opGetObj k =>
    simp only [pureStep]
    have he : pureGet { tr with useCache := b } (some k) = pureGet tr (some k) := rfl
    rw [he]
    cases pureGet tr (some k) with
    | error e => rfl
    | ok r => rfl
  | opPlural k vls f =>
    simp only [pureStep]
    have he : purePlural { tr with useCache := b } k vls f = purePlural tr k vls f := rfl
    rw [he]
    cases purePlural tr k vls f with
    | error e => rfl
    | ok r => rfl
  | opFormat v n a => rfl
  | opChangeLanguage l =>
    simp only [pureStep, changeLanguageFn]
    have hcond : (({ tr with useCache := b } : Tr).resources.map Prod.fst).contains l
        = (tr.resources.map Prod.fst).contains l := rfl
    rw [hcond]
    by_cases hm : (tr.resources.map Prod.fst).contains l = true
    · rw [if_pos hm, if_pos hm]
      rfl
    · rw [if_neg hm, if_neg hm]
      rfl

/-- The `useCache` flag is inert in the whole cache-free run. -/
theorem pureRun_flag (tr : Tr) (b : Bool) (ops : List Op) :
    pureRun { tr with useCache := b } ops = pureRun tr ops := by
  induction ops generalizing tr with
  | nil => rfl
  | cons op ops ih =>
    simp only [pureRun, pureStep_flag tr b op]
    cases h : pureStep tr op with
    | error e => rfl
    | ok t =>
      obtain ⟨tr1, out⟩ := t
      simp only [Except.map, ih tr1]

/-- A heap holding a two-level data object at address `0` (with a nested
object at `1`) and its read-only wrapper at address `2`. -/
def c1demoHeap : Heap :=
  (makeReadOnly
    { objs := [(0, .data [("a", .ref 1)]), (1, .data [("b", .str "x")])]
      proxyCache := []
      protos := []
      next := 2 } 0).1

/-- Witness for the read-only-proxy claim: on the concrete demo heap the
wrapper at address `2` rejects every mutation, and the nested object read
through it is a stable memoised proxy. -/
theorem C1_readonly_proxy_wrapping_witness :
    wfHeap c1demoHeap ∧
    (∀ k v, proxySet c1demoHeap 2 k v = (c1demoHeap, false)) ∧
    (∀ k, proxyDeleteProp c1demoHeap 2 k = (c1demoHeap, false)) ∧
    (∀ k v, proxyDefineProp c1demoHeap 2 k v = (c1demoHeap, false)) ∧
    (∀ q, proxySetProto c1demoHeap 2 q = (c1demoHeap, false)) := by
  have hw : wfHeap c1demoHeap := by decide
  have hp : alist 2 c1demoHeap.objs = some (.proxy 0) := rfl
  have hmain := C1_readonly_proxy_wrapping c1demoHeap 2 0 hw hp
  exact ⟨hw, hmain.1, hmain.2.1, hmain.2.2.1, hmain.2.2.2.1⟩

/-- C9: over any operation sequence, a translator with the cache enabled
over a *coherent* cache (in particular a fresh empty one) returns exactly
the outputs of the identical translator with the cache disabled, whatever
cache the latter carries. -/
theorem C9_cache_transparency (tr : Tr) (ops : List Op) (cT cF : Cache)
    (hcoh : Coherent { tr with useCache := true } cT) :
    runOutputs { tr with useCache := true } cT ops
      = runOutputs { tr with useCache := false } cF ops := by
  have h1 : runOutputs { tr with useCache := true } cT ops
      = pureRun { tr with useCache := true } ops :=
    runOutputs_bridge _ cT ops (fun _ => hcoh)
  have h2 : runOutputs { tr with useCache := false } cF ops
      = pureRun { tr with useCache := false } ops :=
    runOutputs_bridge _ cF ops (fun hu => Bool.noConfusion (show false = true from hu))
  rw [h1, h2, pureRun_flag tr true ops, pureRun_flag tr false ops]

/-- Witness: cache transparency at the empty cache, which is trivially
coherent, on a one-operation run. -/
theorem C9_cache_transparency_witness :
    Coherent { trApples with useCache := true } [] ∧
    runOutputs { trApples with useCache := true } [] [Op.opT "a" none none]
      = runOutputs { trApples with useCache := false } [] [Op.opT "a" none none] := by
  have hcoh : Coherent { trApples with useCache := true } [] := by
    intro lang v h
    exact Option.noConfusion h
  exact ⟨hcoh, C9_cache_transparency trApples [Op.opT "a" none none] [] [] hcoh⟩

/-- Two consecutive `get()` calls sharing one cache, as `withConfig`
views share their parent's cache `Map`: the first view carries the array
scope `["a.b"]` and populates the cache, the second carries the string
scope `"a.b"`; both serialise their scope to the cache key `en::a.b`. -/
def c9viewRun (uc : Bool) : Except Unit (Option JV) :=
  match getFn { trCacheDemo uc with scope := .multi ["a.b"] } [] none with
  | .error e => .error e
  | .ok (_, c1, _) =>
    match getFn { trCacheDemo uc with scope := .single "a.b" } c1 none with
    | .error e => .error e
    | .ok (r, _, _) => .ok r

/-- Counterexample to the unconditional reading of the caching claim:
with the cache enabled the second view reads back the array scope's
merged tree `\x7ba: \x7bb: X\x7d\x7d`, with the cache disabled it
recomputes the leaf `X`. -/
theorem C9_counterexample :
    c9viewRun true = .ok (some (.obj [("a", .obj [("b", .str "X")])])) ∧
    c9viewRun false = .ok (some (.str "X")) ∧
    c9viewRun true ≠ c9viewRun false := by
  refine ⟨rfl, rfl, ?_⟩
  intro h
  have h2 : (Except.ok (some (JV.obj [("a", JV.obj [("b", JV.str "X")])])) :
      Except Unit (Option JV)) = Except.ok (some (JV.str "X")) := h
  simp at h2

end LocL
